import Mathlib

/-!
Verification development for the quantum-migration CLI.

The development shallowly embeds the scan / classify / transform / orchestrate
pipeline of the repository:

* `refactor.py` — an AST-level rewrite engine (three passes over a parsed
  Python module, then an unparse step), embedded as functions over an
  inductive `Mod` type mirroring the subset of the Python AST the engine
  manipulates, together with an executable lexer/reader and printer for that
  subset (modelling `ast.parse` and `astunparse.unparse` on that subset);
* `scanner.py` — risk classification (`assess_risk`) and the merge of
  structured analyzer results with the raw-text fallback pass
  (`scan_codebase`);
* `cli.py` — the `migrate` orchestration loop (per-file refactor with
  error isolation, dry-run gating, key reissuance gating, final report);
* `report.py` — the next-steps wording that branches on the reissuance flag.

File contents are strings; a file system is an association list from path to
`Option String` (`none` models a file whose `open` raises).  Machine strings
are exactly Lean strings; the single-quote character is produced with
`Char.ofNat 39`.
-/

set_option maxRecDepth 100000

namespace QMC

/-- The single-quote character, as used by Python `repr` of plain strings. -/
def sqc : Char := Char.ofNat 39

/-- One-character string holding a single quote. -/
def sq : String := String.singleton sqc

/-- `lStarts p l` holds when list `p` is an initial segment of `l`. -/
def lStarts : List Char → List Char → Bool
  | [], _ => true
  | _ :: _, [] => false
  | a :: as, b :: bs => a == b && lStarts as bs

/-- `lSub p l`: pattern `p` occurs contiguously somewhere inside `l`. -/
def lSub (p : List Char) : List Char → Bool
  | [] => lStarts p []
  | c :: cs => lStarts p (c :: cs) || lSub p cs

/-- Python `s.startswith(p)` on the character sequence of the strings. -/
def strStarts (s p : String) : Bool := lStarts p.data s.data

/-- Python `p in s` (substring containment). -/
def strHasSub (s p : String) : Bool := lSub p.data s.data

/-- Python `s.lower()` (ASCII case folding, as all compared texts are ASCII). -/
def toLowerStr (s : String) : String := String.mk (s.data.map Char.toLower)

/-- A whitespace character (the characters Python `strip` removes, less the
exotic `\v`/`\f`). -/
def isWS (c : Char) : Bool := c == ' ' || c == '\t' || c == '\n' || c == '\r'

/-- Python `s.strip()`. -/
def trimStr (s : String) : String :=
  String.mk (((s.data.dropWhile isWS).reverse.dropWhile isWS).reverse)

/-! ## The embedded Python AST subset

The rewrite engine in `refactor.py` inspects `Import`, `ImportFrom`, `Call`
(with a `Name` or `Name.attr` callee), `Name`, `Attribute` and string
`Constant` nodes, at module level.  The subset below mirrors exactly those
shapes: a module is a flat list of statements; statements are imports,
expression statements and single-target assignments; expressions are names,
string literals, attribute access on a name, and calls whose callee is a name
or a `name.attr`.  `PExpr.espliced` is not surface syntax: it represents the
statement node that `RSA2PQCTransformer.visit_Call` splices into an enclosing
argument list when it returns `[new_call, comment]` from an expression
position (CPython's `NodeTransformer.generic_visit` extends the surrounding
list with both nodes). -/

/-- An `ast.alias`: imported dotted name plus optional `as` binding. -/
structure PAlias where
  name : String
  asname : Option String
deriving BEq, DecidableEq, Repr

/-- Callee of a call: a bare name or `name.attr` (the only callee shapes the
transformer distinguishes; `refactor.py` checks
`isinstance(node.func, ast.Attribute) and isinstance(node.func.value, ast.Name)`). -/
inductive Callee where
  | cname : String → Callee
  | cattr : String → String → Callee
deriving BEq, DecidableEq, Repr

mutual
/-- Expressions of the embedded subset. -/
inductive PExpr where
  | ename : String → PExpr
  | estr : String → PExpr
  | eattr : String → String → PExpr
  | ecall : Callee → ExprList → PExpr
  | espliced : String → PExpr

/-- Argument lists (a mutual inductive so that all recursions are structural). -/
inductive ExprList where
  | nil : ExprList
  | cons : PExpr → ExprList → ExprList
end

/-- Statements of the embedded subset. -/
inductive Stmt where
  | simport : List PAlias → Stmt
  | sfrom : String → List PAlias → Stmt
  | sexpr : PExpr → Stmt
  | sassign : String → PExpr → Stmt

/-- A parsed module: flat list of statements. -/
structure Mod where
  body : List Stmt

/-- Convert a Lean list of expressions to an `ExprList`. -/
def EL : List PExpr → ExprList
  | [] => .nil
  | e :: tl => .cons e (EL tl)

/-- Convert an `ExprList` back to a Lean list. -/
def LE : ExprList → List PExpr
  | .nil => []
  | .cons e tl => e :: LE tl

/-! ## Pass data: the replacement table (`RSA_TO_PQC_MAPPING`) -/

/-- `RSA_TO_PQC_MAPPING` from `refactor.py`. -/
def RSA_TO_PQC_MAPPING : List (String × String) :=
  [("newkeys", "oqs_generate_keypair"),
   ("encrypt", "oqs_encrypt"),
   ("decrypt", "oqs_decrypt"),
   ("sign", "oqs_sign"),
   ("verify", "oqs_verify")]

/-- Dictionary lookup in the replacement table. -/
def mapLookup (f : String) : Option String :=
  (RSA_TO_PQC_MAPPING.find? (fun p => p.1 == f)).map (·.2)

/-- The audit-marker text built by `visit_Call`
(`[Info]: Migrated rsa.{func_name}() to {new_func_name}()`). -/
def migMsg (f g : String) : String :=
  "[Info]: Migrated rsa." ++ f ++ "() to " ++ g ++ "()"

/-- Decompose a call the transformer matches: callee is `name.attr` with
`name.lower() == "rsa"` and `attr` in the replacement table.  Returns the
original attribute, its replacement name, and the argument list. -/
def matchRSACall : PExpr → Option (String × String × ExprList)
  | .ecall (.cattr v f) args =>
      if toLowerStr v = "rsa" then
        match mapLookup f with
        | some g => some (f, g, args)
        | none => none
      else none
  | _ => none

/-! ## Pass 1: `RemoveRSAImportTransformer` -/

/-- Per-statement action of `RemoveRSAImportTransformer`: `visit_Import`
computes the list of aliases whose module name is not `rsa` only to test it
for emptiness — it returns the original node unchanged when any non-`rsa`
name remains (`return node if new_names else None`; `node.names` is never
reassigned), and deletes the statement when none remain; `visit_ImportFrom`
deletes `from rsa import ...` statements. -/
def removeStmt : Stmt → Option Stmt
  | .simport al =>
      if (al.filter (fun a => a.name != "rsa")).isEmpty then none
      else some (.simport al)
  | .sfrom m ns => if m = "rsa" then none else some (.sfrom m ns)
  | s => some s

/-- Whole-module pass 1. -/
def removeRSAImports (m : Mod) : Mod :=
  ⟨m.body.filterMap removeStmt⟩

/-! ## Pass 2: `RSA2PQCTransformer` -/

mutual
/-- Transform an expression in a single-child position (CPython
`generic_visit` on a node whose matching-call children, if any, all sit in
list fields).  A call recursively transforms its argument list; all other
node kinds have no child the transformer touches. -/
def tExpr : PExpr → PExpr
  | .ecall c args => .ecall c (tArgs args)
  | e => e

/-- Transform an argument list.  A matching call element is replaced by the
renamed call followed by the spliced audit-marker statement (the CPython
`generic_visit` `extend` of the returned `[new_call, comment]` list); the
arguments of the replaced call are taken verbatim, without recursing into
them, exactly as `visit_Call` builds `ast.Call(..., args=node.args, ...)`
in its matching branch. -/
def tArgs : ExprList → ExprList
  | .nil => .nil
  | .cons e tl =>
      match matchRSACall e with
      | some (f, g, args) =>
          .cons (.ecall (.cname g) args) (.cons (.espliced (migMsg f g)) (tArgs tl))
      | none => .cons (tExpr e) (tArgs tl)
end

/-- Transform one statement.  When the matching call is the whole expression
statement or the whole assignment value, the spliced comment renders as a
fresh statement line, so it is modelled as a second statement (byte-for-byte
the same unparse output as CPython's `Expr.value = [new_call, comment]`). -/
def tStmt : Stmt → List Stmt
  | .sexpr e =>
      match matchRSACall e with
      | some (f, g, args) =>
          [.sexpr (.ecall (.cname g) args), .sexpr (.estr (migMsg f g))]
      | none => [.sexpr (tExpr e)]
  | .sassign x e =>
      match matchRSACall e with
      | some (f, g, args) =>
          [.sassign x (.ecall (.cname g) args), .sexpr (.estr (migMsg f g))]
      | none => [.sassign x (tExpr e)]
  | s => [s]

/-- Whole-module pass 2. -/
def replaceRSACalls (m : Mod) : Mod :=
  ⟨(m.body.map tStmt).flatten⟩

/-! ## Pass 3: `AddPQCImportTransformer` -/

/-- `visit_ImportFrom` detection: an import from `pqc_helpers`. -/
def isPqcImport : Stmt → Bool
  | .sfrom m _ => m == "pqc_helpers"
  | _ => false

/-- The five replacement names inserted by `visit_Module`. -/
def pqcNames : List PAlias :=
  [⟨"oqs_generate_keypair", none⟩, ⟨"oqs_encrypt", none⟩, ⟨"oqs_decrypt", none⟩,
   ⟨"oqs_sign", none⟩, ⟨"oqs_verify", none⟩]

/-- The import statement `AddPQCImportTransformer` inserts at position 0. -/
def pqcImport : Stmt := .sfrom "pqc_helpers" pqcNames

/-- Whole-module pass 3: insert the five-name import at the top unless
an import from `pqc_helpers` is already present anywhere in the module. -/
def addPQCImport (m : Mod) : Mod :=
  if m.body.any isPqcImport then m else ⟨pqcImport :: m.body⟩

/-- The three ordered passes of `refactor_code_ast`, on the parsed tree. -/
def applyPasses (m : Mod) : Mod :=
  addPQCImport (replaceRSACalls (removeRSAImports m))

/-! ## `astunparse.unparse` on the subset

`astunparse`'s `Unparser` writes each statement with `fill`, which emits a
newline followed by the indented text (all our statements are at module
level, indent 0), and the trailing `print("", file=self.f)` appends one final
newline; so the output is the concatenation of newline-led statement strings
plus `"\n"`.  String constants are written with `repr`, i.e. single-quoted
for our plain texts.  A spliced statement node in an expression position is
dispatched through `_Expr`, emitting its `fill` newline in place. -/

/-- Render one `ast.alias`. -/
def unparseAlias (a : PAlias) : String :=
  a.name ++ (match a.asname with | some s => " as " ++ s | none => "")

/-- Render a callee. -/
def unparseCallee : Callee → String
  | .cname s => s
  | .cattr v a => v ++ "." ++ a

mutual
/-- Render an expression. -/
def unparseExpr : PExpr → String
  | .ename s => s
  | .estr s => sq ++ s ++ sq
  | .eattr v a => v ++ "." ++ a
  | .ecall c args => unparseCallee c ++ "(" ++ unparseArgs args ++ ")"
  | .espliced s => "\n" ++ sq ++ s ++ sq

/-- Render an argument list with `", "` between elements (the separator is
written before each element but the first, also before a spliced node). -/
def unparseArgs : ExprList → String
  | .nil => ""
  | .cons e .nil => unparseExpr e
  | .cons e (.cons f tl) => unparseExpr e ++ ", " ++ unparseArgs (.cons f tl)
end

/-- Render one statement, led by its `fill` newline. -/
def unparseStmt : Stmt → String
  | .simport al => "\nimport " ++ String.intercalate ", " (al.map unparseAlias)
  | .sfrom m al => "\nfrom " ++ m ++ " import " ++ String.intercalate ", " (al.map unparseAlias)
  | .sexpr e => "\n" ++ unparseExpr e
  | .sassign x e => "\n" ++ x ++ " = " ++ unparseExpr e

/-- Concatenate the rendered statements. -/
def unparseBody : List Stmt → String
  | [] => ""
  | s :: t => unparseStmt s ++ unparseBody t

/-- Render a module (plus the final newline the unparser always appends). -/
def unparse (m : Mod) : String :=
  unparseBody m.body ++ "\n"

/-! ## `ast.parse` on the subset

An executable lexer and reader for the statement subset above.  Newlines at
paren depth zero separate statements; newlines inside parentheses are
implicit line joins; `#` comments run to end of line; single-quoted string
literals may not span lines.  Everything outside the subset is rejected
(`none`), modelling a parse failure. -/

/-- Tokens. -/
inductive Tok where
  | tid : String → Tok
  | tstr : String → Tok
  | tlp : Tok
  | trp : Tok
  | tcomma : Tok
  | tdot : Tok
  | teq : Tok
  | tnl : Tok
deriving BEq, DecidableEq, Repr

/-- Character classes of identifiers. -/
def isIdChar (c : Char) : Bool := c.isAlphanum || c == '_'

/-- Identifier leading character. -/
def isIdStart (c : Char) : Bool := c.isAlpha || c == '_'

/-- Fuel-driven lexer over the character list, tracking paren depth. -/
def lexChars : Nat → List Char → Nat → Option (List Tok)
  | 0, _, _ => none
  | _ + 1, [], _ => some []
  | fuel + 1, c :: cs, depth =>
    if c == ' ' || c == '\t' || c == '\r' then lexChars fuel cs depth
    else if c == '\n' then
      if depth == 0 then (lexChars fuel cs depth).map (Tok.tnl :: ·)
      else lexChars fuel cs depth
    else if c == '#' then lexChars fuel (cs.dropWhile (fun d => d ≠ '\n')) depth
    else if c == '(' then (lexChars fuel cs (depth + 1)).map (Tok.tlp :: ·)
    else if c == ')' then (lexChars fuel cs (depth - 1)).map (Tok.trp :: ·)
    else if c == ',' then (lexChars fuel cs depth).map (Tok.tcomma :: ·)
    else if c == '.' then (lexChars fuel cs depth).map (Tok.tdot :: ·)
    else if c == '=' then (lexChars fuel cs depth).map (Tok.teq :: ·)
    else if c == sqc then
      let content := cs.takeWhile (fun d => d ≠ sqc)
      if content.any (· == '\n') then none
      else match cs.drop content.length with
        | [] => none
        | _ :: rest => (lexChars fuel rest depth).map (Tok.tstr (String.mk content) :: ·)
    else if isIdStart c then
      let idtl := cs.takeWhile isIdChar
      (lexChars fuel (cs.drop idtl.length) depth).map (Tok.tid (String.mk (c :: idtl)) :: ·)
    else none

/-- Lex a source string. -/
def lex (s : String) : Option (List Tok) := lexChars (s.length + 1) s.data 0

/-- Reserved words that cannot appear as expression names in the subset. -/
def isKw (s : String) : Bool := s == "import" || s == "from" || s == "as"

mutual
/-- Read one expression. -/
def readExpr : Nat → List Tok → Option (PExpr × List Tok)
  | 0, _ => none
  | _ + 1, Tok.tstr s :: rest => some (.estr s, rest)
  | fuel + 1, Tok.tid a :: rest =>
      if isKw a then none
      else match rest with
        | Tok.tdot :: Tok.tid b :: Tok.tlp :: rest3 =>
            match readArgsTail fuel rest3 with
            | some (args, rest4) => some (.ecall (.cattr a b) args, rest4)
            | none => none
        | Tok.tdot :: Tok.tid b :: rest2 =>
            if isKw b then none else some (.eattr a b, rest2)
        | Tok.tlp :: rest3 =>
            match readArgsTail fuel rest3 with
            | some (args, rest4) => some (.ecall (.cname a) args, rest4)
            | none => none
        | _ => some (.ename a, rest)
  | _, _ => none

/-- Read the argument list after an opening paren, through the closing paren. -/
def readArgsTail : Nat → List Tok → Option (ExprList × List Tok)
  | 0, _ => none
  | _ + 1, Tok.trp :: rest => some (.nil, rest)
  | fuel + 1, toks =>
      match readExpr fuel toks with
      | some (e, Tok.tcomma :: rest) =>
          match readArgsTail fuel rest with
          | some (args, rest2) => some (.cons e args, rest2)
          | none => none
      | some (e, Tok.trp :: rest) => some (.cons e .nil, rest)
      | _ => none
end

/-- Read one `ast.alias` (`name` or `name as name`). -/
def readAlias : List Tok → Option (PAlias × List Tok)
  | Tok.tid n :: Tok.tid a :: Tok.tid m :: rest =>
      if isKw n then none
      else if a == "as" then
        if isKw m then none else some (⟨n, some m⟩, rest)
      else some (⟨n, none⟩, Tok.tid a :: Tok.tid m :: rest)
  | Tok.tid n :: rest =>
      if isKw n then none else some (⟨n, none⟩, rest)
  | _ => none

/-- Read a comma-separated alias list. -/
def readAliases : Nat → List Tok → Option (List PAlias × List Tok)
  | 0, _ => none
  | fuel + 1, toks =>
      match readAlias toks with
      | none => none
      | some (a, Tok.tcomma :: rest) =>
          match readAliases fuel rest with
          | some (al, rest2) => some (a :: al, rest2)
          | none => none
      | some (a, rest) => some ([a], rest)

/-- Read one statement. -/
def readStmt (fuel : Nat) : List Tok → Option (Stmt × List Tok)
  | Tok.tid k :: rest =>
      if k == "import" then
        match readAliases fuel rest with
        | some (al, rest2) => some (.simport al, rest2)
        | none => none
      else if k == "from" then
        match rest with
        | Tok.tid m :: Tok.tid i :: rest2 =>
            if isKw m then none
            else if i == "import" then
              match readAliases fuel rest2 with
              | some (al, rest3) => some (.sfrom m al, rest3)
              | none => none
            else none
        | _ => none
      else
        match rest with
        | Tok.teq :: rest2 =>
            if isKw k then none
            else match readExpr fuel rest2 with
              | some (e, rest3) => some (.sassign k e, rest3)
              | none => none
        | _ =>
            match readExpr fuel (Tok.tid k :: rest) with
            | some (e, rest2) => some (.sexpr e, rest2)
            | none => none
  | toks =>
      match readExpr fuel toks with
      | some (e, rest) => some (.sexpr e, rest)
      | none => none

/-- Read a whole module body. -/
def readMod : Nat → List Tok → Option (List Stmt)
  | 0, _ => none
  | _ + 1, [] => some []
  | fuel + 1, Tok.tnl :: rest => readMod fuel rest
  | fuel + 1, toks =>
      match readStmt fuel toks with
      | some (s, Tok.tnl :: rest) => (readMod fuel rest).map (s :: ·)
      | some (s, []) => some [s]
      | _ => none

/-- `ast.parse` on the subset. -/
def parse (code : String) : Option Mod :=
  match lex code with
  | none => none
  | some toks =>
      match readMod (toks.length + 1) toks with
      | some body => some ⟨body⟩
      | none => none

/-! ## `refactor_code_ast` and `refactor_file` -/

/-- The machine-readable error-marker line that `refactor_code_ast` puts in
front of the original source when parsing or a pass raises
(`# [Error]: AST transformation failed due to {e}\n`; the rendering of the
caught exception object is abstracted to a fixed message). -/
def errLine : String := "# [Error]: AST transformation failed due to invalid syntax\n"

/-- `refactor_code_ast` from `refactor.py`: parse, run the three passes,
unparse; on failure return the original text with the error marker in front. -/
def refactor_code_ast (code : String) : String :=
  match parse code with
  | some m => unparse (applyPasses m)
  | none => errLine ++ code

/-! ## File system, `refactor_file`, and the `migrate` orchestration

A file system is an association list from path to `Option String`; a `none`
content models a file on which `open`/read raises.  `fsWrite` updates the
entry in place (or creates it, as `open(path, "w")` does). -/

/-- File-system state. -/
abbrev FS := List (String × Option String)

/-- Read a file; `none` when the path is absent or its content is `none`
(an `open`/read that raises). -/
def fsRead (fs : FS) (p : String) : Option String :=
  match List.lookup p fs with
  | some (some c) => some c
  | _ => none

/-- Write a file (`open(path, "w")` then write): the new entry shadows any
older one — the file system is observed through `fsRead`, which returns the
newest entry for a path. -/
def fsWrite (fs : FS) (p : String) (c : String) : FS :=
  (p, some c) :: fs

/-- `refactor_file` from `refactor.py`: read the file (a failing read raises,
modelled as `none`), compute `refactor_code_ast`, and — unless in dry-run —
write the result back and return it; in dry-run, print the preview and
return the original content without writing. -/
def refactor_file (fs : FS) (p : String) (dryRun : Bool) : Option (FS × String) :=
  match fsRead fs p with
  | none => none
  | some code =>
      let r := refactor_code_ast code
      if dryRun then some (fs, code)
      else some (fsWrite fs p r, r)

/-- The per-file loop of `migrate` (cli.py): each file is refactored inside a
`try`; on an exception the loop echoes one error for that file and moves on;
otherwise, when not in dry-run, `migrate` writes the returned content again
and echoes `Updated`.  `errs` accumulates the paths an error was echoed for. -/
def migrateLoopAux (dryRun : Bool) : FS → List String → List String → FS × List String
  | fs, errs, [] => (fs, errs)
  | fs, errs, p :: ps =>
      match refactor_file fs p dryRun with
      | none => migrateLoopAux dryRun fs (errs ++ [p]) ps
      | some (fs', c) =>
          migrateLoopAux dryRun (if dryRun then fs' else fsWrite fs' p c) errs ps

/-- The refactor loop over the grouped file paths. -/
def migrateLoop (dryRun : Bool) (fs : FS) (paths : List String) : FS × List String :=
  migrateLoopAux dryRun fs [] paths

/-- `run_tests` from `test_runner.py` always reports success. -/
def run_tests_success : Bool := true

/-- The next-steps wording of `generate_final_report` (report.py line 48),
branching on the key-reissuance flag. -/
def nextSteps (flag : Bool) : String :=
  if flag then "PQC keys have been automatically reissued."
  else "Please trigger key reissuance manually."

/-- Outcome of a `migrate` run. -/
structure MigrateOut where
  fs : FS
  errs : List String
  reissued : Bool
  report : Option (Bool × String)

/-- The `migrate` command (cli.py): scan findings are grouped by real path
(dict keys keep first-occurrence order, duplicates collapse); after the
confirmation gate the per-file loop runs; key reissuance is triggered only
when not in dry-run and the second confirmation is accepted; tests run; the
final report carries `key_reissuance_done = (not dry_run)` and the
next-steps wording branching on that flag.  Interactive confirmations are
modelled as boolean inputs. -/
def migrate (fs : FS) (findingPaths : List String)
    (dryRun confirmRefactor confirmReissue : Bool) : MigrateOut :=
  if findingPaths.isEmpty then ⟨fs, [], false, none⟩
  else if !confirmRefactor then ⟨fs, [], false, none⟩
  else
    let out := migrateLoop dryRun fs findingPaths.eraseDups
    let reissued := !dryRun && confirmReissue
    if !run_tests_success then ⟨out.1, out.2, reissued, none⟩
    else ⟨out.1, out.2, reissued, some (!dryRun, nextSteps !dryRun)⟩

/-! ## `assess_risk` (scanner.py) -/

/-- The normalization `result["extra"]["message"].lower().strip()`. -/
def normMsg (msg : String) : String := trimStr (toLowerStr msg)

/-- `assess_risk`: the ordered rule table of scanner.py, first match wins,
default `Low`.  The rsa-family rule checks the mitigation markers before
returning the family's `High` default. -/
def assess_risk (msg : String) : String :=
  let m := normMsg msg
  if strStarts m "insecure rsa key usage detected" then
    if strHasSub m ">=3072" || strHasSub m "kyber" then "Low" else "High"
  else if strStarts m "insecure use of md5 detected" then "High"
  else if strStarts m "insecure use of sha-1 detected" then "High"
  else if strStarts m "insecure use of ecdsa detected" then "High"
  else if strStarts m "insecure use of triple des detected"
      || (strHasSub m "3des" && strHasSub m "insecure") then "Medium"
  else if strStarts m "insecure use of diffie"
      || (strHasSub m "diffie" && strHasSub m "insecure") then "Low"
  else if strStarts m "insecure hmac with md5 detected" then "High"
  else "Low"

/-- `True` when some rule of the `assess_risk` table fires on the normalized
message (otherwise the function falls through to the default `Low`). -/
def someRuleFires (m : String) : Bool :=
  strStarts m "insecure rsa key usage detected"
  || strStarts m "insecure use of md5 detected"
  || strStarts m "insecure use of sha-1 detected"
  || strStarts m "insecure use of ecdsa detected"
  || strStarts m "insecure use of triple des detected"
  || (strHasSub m "3des" && strHasSub m "insecure")
  || strStarts m "insecure use of diffie"
  || (strHasSub m "diffie" && strHasSub m "insecure")
  || strStarts m "insecure hmac with md5 detected"

/-! ## `scan_codebase` (scanner.py): merge of the two finding streams -/

/-- One entry of the external analyzer's `results` array. -/
structure SResult where
  path : String
  line : Option Nat
  message : String
deriving BEq, DecidableEq, Repr

/-- A Finding record. -/
structure Finding where
  file : String
  real_path : String
  line : String
  message : String
  risk : String
  code : String
deriving BEq, DecidableEq, Repr

/-- Candidate files with their line lists (`none`: reading raises). -/
abbrev FileSet := List (String × Option (List String))

/-- Read the lines of a candidate file. -/
def readLines (files : FileSet) (p : String) : Option (List String) :=
  match List.lookup p files with
  | some (some ls) => some ls
  | _ => none

/-- `anonymize_path`: keep the last two path segments (path normalization of
redundant separators is not modelled). -/
def anonymize_path (p : String) : String :=
  let parts := p.splitOn "/"
  if parts.length ≥ 2 then String.intercalate "/" (parts.drop (parts.length - 2))
  else p

/-- The code snippet the structured loop extracts:
`lines[line_num - 1] if line_num <= len(lines) else ""`, with a failing read
degrading to `""` (Python's `lines[-1]` for a zero line number is the last
line, or `""` via the exception handler when the file is empty). -/
def snippetFor (files : FileSet) (p : String) (n : Nat) : String :=
  match readLines files p with
  | none => ""
  | some lines =>
      if n = 0 then (match lines.getLast? with | some l => l | none => "")
      else if n ≤ lines.length then lines.getD (n - 1) ""
      else ""

/-- Build the structured Finding for one retained analyzer result. -/
def mkStructured (files : FileSet) (anonymize : Bool) (r : SResult) : Finding :=
  { file := if anonymize then anonymize_path r.path else r.path
    real_path := r.path
    line := match r.line with | none => "N/A" | some n => toString n
    message := "RSA detected"
    risk := assess_risk r.message
    code := match r.line with | none => "" | some n => snippetFor files r.path n }

/-- First merge stage: keep the analyzer results whose message mentions
`rsa` (case-insensitively) and turn each into a structured Finding. -/
def structuredPhase (files : FileSet) (anonymize : Bool) (results : List SResult) :
    List Finding :=
  results.filterMap (fun r =>
    if strHasSub (toLowerStr r.message) "rsa" then some (mkStructured files anonymize r)
    else none)

/-- Build the raw-text fallback Finding for one flagged line. -/
def mkFallback (anonymize : Bool) (p : String) (idx : Nat) (l : String) : Finding :=
  { file := if anonymize then anonymize_path p else p
    real_path := p
    line := toString idx
    message := "Unmatched RSA reference"
    risk := "Review"
    code := trimStr l }

/-- `any(f["real_path"] == file_path and f["line"] == str(idx) for f in findings)`. -/
def keyHit (acc : List Finding) (p : String) (idx : Nat) : Bool :=
  acc.any (fun f => f.real_path == p && f.line == toString idx)

/-- Fallback scan of one file's lines (1-based enumeration), appending a
fallback Finding for each line that mentions `rsa` at a key not already
reported. -/
def fallbackLines (anonymize : Bool) (p : String) : Nat → List String → List Finding →
    List Finding
  | _, [], acc => acc
  | idx, l :: ls, acc =>
      fallbackLines anonymize p (idx + 1) ls
        (if strHasSub (toLowerStr l) "rsa" && !keyHit acc p idx then
          acc ++ [mkFallback anonymize p idx l]
         else acc)

/-- Fallback scan over the candidate list; a file whose read raises is
skipped (`except Exception: continue`). -/
def fallbackPhase (anonymize : Bool) : FileSet → List Finding → List Finding
  | [], acc => acc
  | (_, none) :: rest, acc => fallbackPhase anonymize rest acc
  | (p, some ls) :: rest, acc => fallbackPhase anonymize rest (fallbackLines anonymize p 1 ls acc)

/-- `scan_codebase`'s merge of the two finding streams: the structured
findings are collected first, then the raw-text fallback pass adds findings
only at keys not already present. -/
def scan_codebase (files : FileSet) (anonymize : Bool) (results : List SResult) :
    List Finding :=
  fallbackPhase anonymize files (structuredPhase files anonymize results)

/-- A structured-match Finding (first stream). -/
def isStructured (f : Finding) : Bool := f.message == "RSA detected"

/-- A raw-text fallback Finding (second stream). -/
def isFallback (f : Finding) : Bool := f.message == "Unmatched RSA reference"

/-! ## Sub-expression machinery for the transformation engine -/

mutual
/-- All sub-expressions of an expression (the expression itself included). -/
def subE : PExpr → List PExpr
  | .ecall c args => .ecall c args :: subL args
  | e => [e]

/-- All sub-expressions of the elements of an argument list. -/
def subL : ExprList → List PExpr
  | .nil => []
  | .cons e tl => subE e ++ subL tl
end

/-- The expressions of one statement. -/
def stmtExprs : Stmt → List PExpr
  | .sexpr e => subE e
  | .sassign _ e => subE e
  | _ => []

/-- All expressions occurring in a module. -/
def modExprs (m : Mod) : List PExpr :=
  (m.body.map stmtExprs).flatten

/-- No expression of the list is a call the transformer matches. -/
def NoMapped (xs : List PExpr) : Prop :=
  ∀ e ∈ xs, matchRSACall e = none

/-- Every matched call among the listed expressions has arguments free of
further matched calls (the transformer's matching branch copies the
arguments verbatim without visiting them, so nesting matters). -/
def CleanL (xs : List PExpr) : Prop :=
  ∀ e ∈ xs, ∀ f g args, matchRSACall e = some (f, g, args) →
    NoMapped (subL args)

/-- A statement that is an import form. -/
def importLike : Stmt → Bool
  | .simport _ => true
  | .sfrom _ _ => true
  | _ => false

/-- No binding of the insecure library's name remains in the statement. -/
def rsaFreeStmt : Stmt → Bool
  | .simport al => al.all (fun a => a.name != "rsa")
  | .sfrom M _ => !(M == "rsa")
  | _ => true

/-- The statement survives pass 1 in whole (no alias dropped, statement kept):
a non-degenerate import free of `rsa` bindings, a `from` import not from
`rsa`, or any non-import statement. -/
def stmtKeepsWhole : Stmt → Bool
  | .simport al => !al.isEmpty && al.all (fun a => a.name != "rsa")
  | .sfrom M _ => !(M == "rsa")
  | _ => true

/-- An expression the transformer matches. -/
def isMappedB (e : PExpr) : Bool := (matchRSACall e).isSome

/-- No expression of the module is a call the transformer matches. -/
def noMappedB (m : Mod) : Bool := (modExprs m).all (fun e => !isMappedB e)

/-- An already-migrated module, in the sense of the idempotence contract:
no binding of `rsa` (all import statements survive pass 1 unchanged), no
call whose callee resolves to an `rsa`-alias attribute, and an
existing import from `pqc_helpers`. -/
def migratedB (m : Mod) : Bool :=
  m.body.all stmtKeepsWhole && noMappedB m && m.body.any isPqcImport

/-- The statement is the exact five-name import from `pqc_helpers`. -/
def isFiveImport : Stmt → Bool
  | .sfrom M al => M == "pqc_helpers" && al == pqcNames
  | _ => false

/-- The expression lists contributed by a list of statements. -/
def stmtsExprs (ss : List Stmt) : List PExpr :=
  (ss.map stmtExprs).flatten

/-- Decidable sufficient condition for `CleanL (modExprs m)`: the arguments
of every matched call in the module contain no further matched call. -/
def cleanB (m : Mod) : Bool :=
  (modExprs m).all (fun e =>
    match matchRSACall e with
    | some (_, _, args) => (subL args).all (fun g => !isMappedB g)
    | none => true)

/-- The module contains a call whose callee is the attribute `encrypt` of the
name `rsa`. -/
def hasRsaEncryptCallB (m : Mod) : Bool :=
  (modExprs m).any (fun e =>
    match e with
    | .ecall (.cattr v f) _ => v == "rsa" && f == "encrypt"
    | _ => false)

/-- The module contains an `import` statement binding the module name `rsa`. -/
def hasRsaImportB (m : Mod) : Bool :=
  m.body.any (fun s =>
    match s with
    | .simport al => al.any (fun a => a.name == "rsa")
    | _ => false)

/-- The text the unparser emits for the inserted five-name import (with its
leading `fill` newline). -/
def pqcHeaderStr : String := unparseStmt pqcImport

/-! ## Concrete inputs used by witnesses and counterexamples -/

/-- Already-migrated source: a `pqc_helpers` import and an unrelated
assignment. -/
def cMigW : String := "from pqc_helpers import oqs_encrypt\nx = y"

/-- Its parse. -/
def mMigW : Mod := (parse cMigW).getD ⟨[]⟩

/-- A vulnerable file whose matched call is a whole statement. -/
def cIdemW : String := "import rsa\nrsa.encrypt(a, b)"

/-- Its parse. -/
def mIdemW : Mod := (parse cIdemW).getD ⟨[]⟩

/-- The parse of the engine's output for `cIdemW`. -/
def m2IdemW : Mod := (parse (refactor_code_ast cIdemW)).getD ⟨[]⟩

/-- Already-migrated source that is not in the unparser's output format. -/
def cMigCE : String := "from pqc_helpers import oqs_encrypt"

/-- Its parse. -/
def mMigCE : Mod := (parse cMigCE).getD ⟨[]⟩

/-- A matched call nested inside another call's argument list. -/
def cPrintCE : String := "print(rsa.encrypt(a, b))"

/-- Scenario-1 shaped module: `import rsa` and a statement-level
`rsa.encrypt(a, b)` call. -/
def mC4W : Mod :=
  ⟨[.simport [⟨"rsa", none⟩],
    .sexpr (.ecall (.cattr "rsa" "encrypt") (EL [.ename "a", .ename "b"]))]⟩

/-- Scenario-1 input that already holds a partial `pqc_helpers` import. -/
def cC4a : String := "import rsa\nfrom pqc_helpers import oqs_sign\nrsa.encrypt(a, b)"

/-- Its parse. -/
def mC4a : Mod := (parse cC4a).getD ⟨[]⟩

/-- Scenario-1 input with a matched call nested in a matched call's
arguments. -/
def cC4b : String := "import rsa\nrsa.encrypt(rsa.encrypt(a, b), c)"

/-- Its parse. -/
def mC4b : Mod := (parse cC4b).getD ⟨[]⟩

/-- Every import statement binding the module name `rsa` binds only `rsa`
(so pass 1's whole-statement deletion removes every `rsa` binding). -/
def rsaImportsPureB (m : Mod) : Bool :=
  m.body.all (fun s =>
    match s with
    | .simport al =>
        !(al.any (fun a => a.name == "rsa"))
        || (al.filter (fun a => a.name != "rsa")).isEmpty
    | _ => true)

/-- A mixed import binding `rsa` together with `os`. -/
def cC3CE : String := "import rsa, os"

/-- Its parse. -/
def mC3CE : Mod := (parse cC3CE).getD ⟨[]⟩

/-- Three vulnerable files of which `b.py` holds unparsable source. -/
def fsC2CE : FS :=
  [("a.py", some "import rsa"), ("b.py", some "("), ("c.py", some "x = y")]

/-- Three vulnerable files of which reading `b.py` raises. -/
def fsC2W : FS :=
  [("a.py", some "import rsa"), ("b.py", none), ("c.py", some "x = y")]

/-- A single vulnerable file, for orchestration runs. -/
def fsC9W : FS := [("a.py", some "import rsa")]

/-- Two distinct analyzer results at the same (path, line) key, both
mentioning rsa. -/
def resC5 : List SResult :=
  [⟨"a.py", some 1, "insecure rsa key usage detected"⟩,
   ⟨"a.py", some 1, "rsa weak padding detected"⟩]

/-- The candidate file matching `resC5`. -/
def filesC5 : FileSet := [("a.py", some ["import rsa"])]

/-- The dedup invariant on an accumulated Finding list: fallback findings
carry pairwise-distinct (real path, line) keys, and no fallback finding sits
at a key occupied by a structured finding. -/
def GoodAcc (acc : List Finding) : Prop :=
  (acc.filter isFallback).Pairwise
    (fun f g => ¬(f.real_path = g.real_path ∧ f.line = g.line))
  ∧ ∀ f ∈ acc, isFallback f = true → ∀ g ∈ acc, isStructured g = true →
      ¬(f.real_path = g.real_path ∧ f.line = g.line)

theorem subE_self (e : PExpr) : e ∈ subE e := by
  cases e <;> simp [subE]

theorem subL_cons (e : PExpr) (tl : ExprList) :
    subL (.cons e tl) = subE e ++ subL tl := rfl

/-- Whether `matchRSACall` fires depends only on the callee. -/
theorem matchRSACall_none_args (c : Callee) (l l' : ExprList)
    (h : matchRSACall (.ecall c l) = none) :
    matchRSACall (.ecall c l') = none := by
  cases c with
  | cname s => rfl
  | cattr v f =>
      simp only [matchRSACall] at h ⊢
      split at h
      · cases hm : mapLookup f with
        | none => simp [hm]
        | some g => rw [hm] at h; simp at h
      · simp_all

theorem noMapped_append {xs ys : List PExpr} (hx : NoMapped xs) (hy : NoMapped ys) :
    NoMapped (xs ++ ys) := by
  intro e he
  rcases List.mem_append.mp he with h | h
  · exact hx e h
  · exact hy e h

theorem cleanL_of_append_left {xs ys : List PExpr} (h : CleanL (xs ++ ys)) :
    CleanL xs := fun e he => h e (List.mem_append.mpr (Or.inl he))

theorem cleanL_of_append_right {xs ys : List PExpr} (h : CleanL (xs ++ ys)) :
    CleanL ys := fun e he => h e (List.mem_append.mpr (Or.inr he))

/-- Inversion for a positive `matchRSACall`. -/
theorem matchRSACall_some_inv {e : PExpr} {f g : String} {args : ExprList}
    (h : matchRSACall e = some (f, g, args)) :
    ∃ v, e = PExpr.ecall (Callee.cattr v f) args ∧ toLowerStr v = "rsa"
      ∧ mapLookup f = some g := by
  cases e with
  | ecall c l =>
      cases c with
      | cname s => simp [matchRSACall] at h
      | cattr v fa =>
          have h' : (if toLowerStr v = "rsa" then
              match mapLookup fa with
              | some g2 => some (fa, g2, l)
              | none => none
            else (none : Option (String × String × ExprList))) = some (f, g, args) := h
          by_cases hv : toLowerStr v = "rsa"
          · rw [if_pos hv] at h'
            cases hml : mapLookup fa with
            | none => rw [hml] at h'; exact absurd h' (by simp)
            | some gx =>
                rw [hml] at h'
                simp only [Option.some.injEq, Prod.mk.injEq] at h'
                obtain ⟨h1, h2, h3⟩ := h'
                subst h1; subst h2; subst h3
                exact ⟨v, rfl, hv, hml⟩
          · rw [if_neg hv] at h'; exact absurd h' (by simp)
  | ename s => simp [matchRSACall] at h
  | estr s => simp [matchRSACall] at h
  | eattr v a => simp [matchRSACall] at h
  | espliced s => simp [matchRSACall] at h

theorem mem_subE_cases {g e : PExpr} (h : g ∈ subE e) :
    g = e ∨ ∃ c args, e = .ecall c args ∧ g ∈ subL args := by
  cases e with
  | ecall c args =>
      rcases List.mem_cons.mp h with h | h
      · exact Or.inl h
      · exact Or.inr ⟨c, args, rfl, h⟩
  | ename s => simp [subE] at h; exact Or.inl h
  | estr s => simp [subE] at h; exact Or.inl h
  | eattr v a => simp [subE] at h; exact Or.inl h
  | espliced s => simp [subE] at h; exact Or.inl h

mutual
/-- After pass 2, no matched call remains below an unmatched expression,
provided matched calls never nest inside matched-call arguments. -/
theorem tExpr_noMapped (e : PExpr) (he : matchRSACall e = none)
    (hc : CleanL (subE e)) : NoMapped (subE (tExpr e)) := by
  cases e with
  | ecall c args =>
      intro g hg
      rcases List.mem_cons.mp hg with h | h
      · subst h; exact matchRSACall_none_args c args (tArgs args) he
      · exact tArgs_noMapped args
          (fun e' he' => hc e' (List.mem_cons_of_mem _ he')) g h
  | ename s => intro g hg; simp [tExpr, subE] at hg; subst hg; exact he
  | estr s => intro g hg; simp [tExpr, subE] at hg; subst hg; exact he
  | eattr v a => intro g hg; simp [tExpr, subE] at hg; subst hg; exact he
  | espliced s => intro g hg; simp [tExpr, subE] at hg; subst hg; exact he

/-- After pass 2, no matched call remains in a transformed argument list,
provided matched calls never nest inside matched-call arguments. -/
theorem tArgs_noMapped (l : ExprList) (hc : CleanL (subL l)) :
    NoMapped (subL (tArgs l)) := by
  cases l with
  | nil => intro g hg; simp [tArgs, subL] at hg
  | cons e tl =>
      cases hm : matchRSACall e with
      | none =>
          simp only [tArgs, hm, subL_cons]
          exact noMapped_append
            (tExpr_noMapped e hm (cleanL_of_append_left hc))
            (tArgs_noMapped tl (cleanL_of_append_right hc))
      | some t =>
          obtain ⟨f, g0, args⟩ := t
          have hargs : NoMapped (subL args) :=
            hc e (List.mem_append.mpr (Or.inl (subE_self e))) f g0 args hm
          simp only [tArgs, hm, subL_cons]
          refine noMapped_append ?_ (noMapped_append ?_ ?_)
          · intro g hg
            rcases List.mem_cons.mp hg with h | h
            · subst h; rfl
            · exact hargs g h
          · intro g hg; simp [subE] at hg; subst hg; rfl
          · exact tArgs_noMapped tl (cleanL_of_append_right hc)
end

mutual
/-- Pass 2 rewrites every occurrence of a matched call below an unmatched
expression into its replacement call with the same arguments. -/
theorem tExpr_preserves (f0 g0 : String) (targs : ExprList) (tgt : PExpr)
    (hm0 : matchRSACall tgt = some (f0, g0, targs))
    (e : PExpr) (he : matchRSACall e = none) (hc : CleanL (subE e))
    (hin : tgt ∈ subE e) :
    PExpr.ecall (.cname g0) targs ∈ subE (tExpr e) := by
  rcases mem_subE_cases hin with h | ⟨c, args, rfl, h⟩
  · subst h; rw [hm0] at he; exact absurd he (by simp)
  · have := tArgs_preserves f0 g0 targs tgt hm0 args
      (fun e' he' => hc e' (List.mem_cons_of_mem _ he')) h
    exact List.mem_cons_of_mem _ this

/-- Pass 2 rewrites every occurrence of a matched call inside an argument
list into its replacement call with the same arguments. -/
theorem tArgs_preserves (f0 g0 : String) (targs : ExprList) (tgt : PExpr)
    (hm0 : matchRSACall tgt = some (f0, g0, targs))
    (l : ExprList) (hc : CleanL (subL l)) (hin : tgt ∈ subL l) :
    PExpr.ecall (.cname g0) targs ∈ subL (tArgs l) := by
  cases l with
  | nil => simp [subL] at hin
  | cons e tl =>
      rcases List.mem_append.mp hin with h | h
      · cases hm : matchRSACall e with
        | none =>
            have := tExpr_preserves f0 g0 targs tgt hm0 e hm
              (cleanL_of_append_left hc) h
            simp only [tArgs, hm, subL_cons]
            exact List.mem_append.mpr (Or.inl this)
        | some t =>
            obtain ⟨f, g1, args⟩ := t
            rcases mem_subE_cases h with hte | ⟨c, args2, he2, hin2⟩
            · subst hte
              rw [hm0] at hm
              simp only [Option.some.injEq, Prod.mk.injEq] at hm
              obtain ⟨h1, h2, h3⟩ := hm
              subst h1; subst h2; subst h3
              simp only [tArgs, hm0, subL_cons]
              exact List.mem_append.mpr (Or.inl (subE_self _))
            · subst he2
              obtain ⟨v1, he1, hv1, hl1⟩ := matchRSACall_some_inv hm
              injection he1 with hc1 ha1
              have hargs : NoMapped (subL args) :=
                hc _ (List.mem_append.mpr (Or.inl (subE_self _))) f g1 args hm
              have hcontr := hargs tgt (ha1 ▸ hin2)
              rw [hm0] at hcontr; simp at hcontr
      · have := tArgs_preserves f0 g0 targs tgt hm0 tl
          (cleanL_of_append_right hc) h
        cases hm : matchRSACall e with
        | none =>
            simp only [tArgs, hm, subL_cons]
            exact List.mem_append.mpr (Or.inr this)
        | some t =>
            obtain ⟨f, g1, args⟩ := t
            simp only [tArgs, hm, subL_cons]
            exact List.mem_append.mpr (Or.inr (List.mem_append.mpr (Or.inr this)))
end

mutual
/-- Pass 2 is the identity on an expression containing no matched call. -/
theorem tExpr_id (e : PExpr) (h : NoMapped (subE e)) : tExpr e = e := by
  cases e with
  | ecall c args =>
      simp only [tExpr]
      rw [tArgs_id args (fun g hg => h g (List.mem_cons_of_mem _ hg))]
  | ename s => rfl
  | estr s => rfl
  | eattr v a => rfl
  | espliced s => rfl

/-- Pass 2 is the identity on an argument list containing no matched call. -/
theorem tArgs_id (l : ExprList) (h : NoMapped (subL l)) : tArgs l = l := by
  cases l with
  | nil => rfl
  | cons e tl =>
      have he : matchRSACall e = none :=
        h e (List.mem_append.mpr (Or.inl (subE_self e)))
      simp only [tArgs, he]
      rw [tExpr_id e (fun g hg => h g (List.mem_append.mpr (Or.inl hg))),
        tArgs_id tl (fun g hg => h g (List.mem_append.mpr (Or.inr hg)))]
end

/-! ## Statement- and module-level lemmas -/

theorem removeStmt_eq_self {s : Stmt} (h : stmtKeepsWhole s = true) :
    removeStmt s = some s := by
  cases s with
  | simport al =>
      simp only [stmtKeepsWhole, Bool.and_eq_true] at h
      obtain ⟨h1, h2⟩ := h
      have hf : al.filter (fun a => a.name != "rsa") = al :=
        List.filter_eq_self.mpr (fun a ha => by
          exact List.all_eq_true.mp h2 a ha)
      simp only [removeStmt, hf]
      rw [if_neg]
      simp only [Bool.not_eq_true'] at h1
      simp [h1]
  | sfrom M ns =>
      simp only [stmtKeepsWhole, Bool.not_eq_true'] at h
      simp only [removeStmt]
      rw [if_neg]
      simp_all
  | sexpr e => rfl
  | sassign x e => rfl

theorem removeRSAImports_id {m : Mod} (h : m.body.all stmtKeepsWhole = true) :
    removeRSAImports m = m := by
  obtain ⟨body⟩ := m
  simp only [removeRSAImports, Mod.mk.injEq]
  induction body with
  | nil => rfl
  | cons s t ih =>
      simp only [List.all_cons, Bool.and_eq_true] at h
      rw [List.filterMap_cons, removeStmt_eq_self h.1]
      exact congrArg (s :: ·) (ih h.2)

theorem removeStmt_pqc {s s' : Stmt} (h : removeStmt s = some s') :
    isPqcImport s' = isPqcImport s := by
  cases s with
  | simport al =>
      simp only [removeStmt] at h
      split at h
      · simp at h
      · cases h; rfl
  | sfrom M ns =>
      simp only [removeStmt] at h
      split at h
      · simp at h
      · cases h; rfl
  | sexpr e => cases h; rfl
  | sassign x e => cases h; rfl

theorem removeRSAImports_noPqc {m : Mod} (h : m.body.any isPqcImport = false) :
    (removeRSAImports m).body.any isPqcImport = false := by
  rw [← Bool.not_eq_true] at h ⊢
  intro hc
  apply h
  rw [List.any_eq_true] at hc ⊢
  obtain ⟨s', hs', hp⟩ := hc
  obtain ⟨s0, hs0, hr⟩ := List.mem_filterMap.mp hs'
  exact ⟨s0, hs0, by rw [← removeStmt_pqc hr]; exact hp⟩

/-- Pass 1 never rewrites a statement it keeps: a kept statement is the
original node. -/
theorem removeStmt_some_eq {s s' : Stmt} (h : removeStmt s = some s') :
    s' = s := by
  cases s with
  | simport al =>
      simp only [removeStmt] at h
      split at h
      · simp at h
      · cases h; rfl
  | sfrom M ns =>
      simp only [removeStmt] at h
      split at h
      · simp at h
      · cases h; rfl
  | sexpr e => cases h; rfl
  | sassign x e => cases h; rfl

/-- Pass 1 only deletes whole statements: its output is a sublist of the
input body. -/
theorem removeRSAImports_sublist (m : Mod) :
    (removeRSAImports m).body.Sublist m.body := by
  obtain ⟨body⟩ := m
  simp only [removeRSAImports]
  induction body with
  | nil => exact List.Sublist.refl []
  | cons s t ih =>
      rw [List.filterMap_cons]
      cases hr : removeStmt s with
      | none => exact List.Sublist.cons s ih
      | some s' => rw [removeStmt_some_eq hr]; exact List.Sublist.cons₂ s ih

/-- Every import statement surviving pass 1 still binds some non-`rsa`
name (an import binding only `rsa` is deleted whole). -/
theorem removeRSAImports_import_nonrsa (m : Mod) :
    ∀ al, Stmt.simport al ∈ (removeRSAImports m).body →
      al.filter (fun a => a.name != "rsa") ≠ [] := by
  intro al hmem
  obtain ⟨s0, _, hr⟩ := List.mem_filterMap.mp hmem
  have he := removeStmt_some_eq hr
  subst he
  simp only [removeStmt] at hr
  split at hr
  · simp at hr
  · next hne =>
      simp only [List.isEmpty_iff] at hne
      exact hne

/-- No `from rsa import ...` statement survives pass 1. -/
theorem removeRSAImports_nofromrsa (m : Mod) :
    ∀ ns, Stmt.sfrom "rsa" ns ∉ (removeRSAImports m).body := by
  intro ns hmem
  obtain ⟨s0, _, hr⟩ := List.mem_filterMap.mp hmem
  have he := removeStmt_some_eq hr
  subst he
  simp [removeStmt] at hr

theorem rsaImportsPure_of_B {m : Mod} (h : rsaImportsPureB m = true) :
    ∀ al, Stmt.simport al ∈ m.body → (∃ a ∈ al, a.name = "rsa") →
      (al.filter (fun a => a.name != "rsa")).isEmpty = true := by
  intro al hmem hex
  obtain ⟨a, ha, hrsa⟩ := hex
  have hb := List.all_eq_true.mp h _ hmem
  rw [Bool.or_eq_true] at hb
  rcases hb with hb | hb
  · exfalso
    rw [Bool.not_eq_true'] at hb
    rw [← Bool.not_eq_true, List.any_eq_true] at hb
    exact hb ⟨a, ha, by simp [hrsa]⟩
  · exact hb

/-- When every import statement binding `rsa` binds only `rsa`, pass 1
leaves no `rsa` binding at all (such statements are deleted whole, and all
surviving statements never bound `rsa`). -/
theorem removeRSAImports_rsaFree_of {m : Mod}
    (h : ∀ al, Stmt.simport al ∈ m.body → (∃ a ∈ al, a.name = "rsa") →
      (al.filter (fun a => a.name != "rsa")).isEmpty = true) :
    ∀ s' ∈ (removeRSAImports m).body, rsaFreeStmt s' = true := by
  intro s' hs'
  obtain ⟨s0, hs0, hr⟩ := List.mem_filterMap.mp hs'
  have he := removeStmt_some_eq hr
  subst he
  cases s' with
  | simport al =>
      simp only [removeStmt] at hr
      split at hr
      · simp at hr
      · next hne =>
          simp only [rsaFreeStmt, List.all_eq_true]
          intro a ha
          by_contra hcon
          simp only [bne_iff_ne, ne_eq, Decidable.not_not] at hcon
          exact hne (h al hs0 ⟨a, ha, hcon⟩)
  | sfrom M ns =>
      simp only [removeStmt] at hr
      split at hr
      · simp at hr
      · next hne => simp only [rsaFreeStmt, Bool.not_eq_true']; simp [hne]
  | sexpr e => rfl
  | sassign x e => rfl

theorem removeStmt_exprs {s s' : Stmt} (h : removeStmt s = some s') :
    stmtExprs s' = stmtExprs s := by
  cases s with
  | simport al =>
      simp only [removeStmt] at h
      split at h
      · simp at h
      · cases h; rfl
  | sfrom M ns =>
      simp only [removeStmt] at h
      split at h
      · simp at h
      · cases h; rfl
  | sexpr e => cases h; rfl
  | sassign x e => cases h; rfl

theorem removeStmt_none_exprs {s : Stmt} (h : removeStmt s = none) :
    stmtExprs s = [] := by
  cases s with
  | simport al => rfl
  | sfrom M ns => rfl
  | sexpr e => simp [removeStmt] at h
  | sassign x e => simp [removeStmt] at h

theorem modExprs_remove (m : Mod) :
    modExprs (removeRSAImports m) = modExprs m := by
  obtain ⟨body⟩ := m
  simp only [modExprs, removeRSAImports]
  induction body with
  | nil => rfl
  | cons s t ih =>
      rw [List.filterMap_cons]
      cases hr : removeStmt s with
      | none =>
          simp only [List.map_cons, List.flatten_cons, removeStmt_none_exprs hr,
            List.nil_append]
          exact ih
      | some s' =>
          simp only [List.map_cons, List.flatten_cons, removeStmt_exprs hr]
          exact congrArg (stmtExprs s ++ ·) ih

theorem tStmt_id {s : Stmt} (h : NoMapped (stmtExprs s)) : tStmt s = [s] := by
  cases s with
  | sexpr e =>
      have he : matchRSACall e = none := h e (subE_self e)
      simp only [tStmt, he]
      rw [tExpr_id e h]
  | sassign x e =>
      have he : matchRSACall e = none := h e (subE_self e)
      simp only [tStmt, he]
      rw [tExpr_id e h]
  | simport al => rfl
  | sfrom M ns => rfl

theorem tStmt_noMapped {s : Stmt} (hc : CleanL (stmtExprs s)) :
    NoMapped (stmtsExprs (tStmt s)) := by
  cases s with
  | sexpr e =>
      cases hm : matchRSACall e with
      | none =>
          simp only [tStmt, hm, stmtsExprs, List.map_cons, List.map_nil,
            List.flatten_cons, List.flatten_nil, List.append_nil]
          exact tExpr_noMapped e hm hc
      | some t =>
          obtain ⟨f, g0, args⟩ := t
          have hargs : NoMapped (subL args) := hc e (subE_self e) f g0 args hm
          simp only [tStmt, hm, stmtsExprs, List.map_cons, List.map_nil,
            List.flatten_cons, List.flatten_nil, List.append_nil]
          refine noMapped_append ?_ ?_
          · intro g hg
            rcases List.mem_cons.mp hg with h | h
            · subst h; rfl
            · exact hargs g h
          · intro g hg; simp [stmtExprs, subE] at hg; subst hg; rfl
  | sassign x e =>
      cases hm : matchRSACall e with
      | none =>
          simp only [tStmt, hm, stmtsExprs, List.map_cons, List.map_nil,
            List.flatten_cons, List.flatten_nil, List.append_nil]
          exact tExpr_noMapped e hm hc
      | some t =>
          obtain ⟨f, g0, args⟩ := t
          have hargs : NoMapped (subL args) := hc e (subE_self e) f g0 args hm
          simp only [tStmt, hm, stmtsExprs, List.map_cons, List.map_nil,
            List.flatten_cons, List.flatten_nil, List.append_nil]
          refine noMapped_append ?_ ?_
          · intro g hg
            rcases List.mem_cons.mp hg with h | h
            · subst h; rfl
            · exact hargs g h
          · intro g hg; simp [stmtExprs, subE] at hg; subst hg; rfl
  | simport al => intro g hg; simp [tStmt, stmtsExprs, stmtExprs] at hg
  | sfrom M ns => intro g hg; simp [tStmt, stmtsExprs, stmtExprs] at hg

theorem tStmt_preserves (f0 g0 : String) (targs : ExprList) (tgt : PExpr)
    (hm0 : matchRSACall tgt = some (f0, g0, targs))
    {s : Stmt} (hc : CleanL (stmtExprs s)) (hin : tgt ∈ stmtExprs s) :
    PExpr.ecall (.cname g0) targs ∈ stmtsExprs (tStmt s) := by
  cases s with
  | sexpr e =>
      cases hm : matchRSACall e with
      | none =>
          have := tExpr_preserves f0 g0 targs tgt hm0 e hm hc hin
          simp only [tStmt, hm, stmtsExprs, List.map_cons, List.map_nil,
            List.flatten_cons, List.flatten_nil, List.append_nil]
          exact this
      | some t =>
          obtain ⟨f, g1, args⟩ := t
          simp only [tStmt, hm, stmtsExprs, List.map_cons, List.map_nil,
            List.flatten_cons, List.flatten_nil, List.append_nil]
          rcases mem_subE_cases hin with hte | ⟨c, args2, he2, hin2⟩
          · subst hte
            rw [hm0] at hm
            simp only [Option.some.injEq, Prod.mk.injEq] at hm
            obtain ⟨h1, h2, h3⟩ := hm
            subst h1; subst h2; subst h3
            exact List.mem_append.mpr (Or.inl (subE_self _))
          · subst he2
            obtain ⟨v1, he1, hv1, hl1⟩ := matchRSACall_some_inv hm
            injection he1 with hc1 ha1
            have hargs : NoMapped (subL args) :=
              hc _ (subE_self _) f g1 args hm
            have hcontr := hargs tgt (ha1 ▸ hin2)
            rw [hm0] at hcontr; simp at hcontr
  | sassign x e =>
      cases hm : matchRSACall e with
      | none =>
          have := tExpr_preserves f0 g0 targs tgt hm0 e hm hc hin
          simp only [tStmt, hm, stmtsExprs, List.map_cons, List.map_nil,
            List.flatten_cons, List.flatten_nil, List.append_nil]
          exact this
      | some t =>
          obtain ⟨f, g1, args⟩ := t
          simp only [tStmt, hm, stmtsExprs, List.map_cons, List.map_nil,
            List.flatten_cons, List.flatten_nil, List.append_nil]
          rcases mem_subE_cases hin with hte | ⟨c, args2, he2, hin2⟩
          · subst hte
            rw [hm0] at hm
            simp only [Option.some.injEq, Prod.mk.injEq] at hm
            obtain ⟨h1, h2, h3⟩ := hm
            subst h1; subst h2; subst h3
            exact List.mem_append.mpr (Or.inl (subE_self _))
          · subst he2
            obtain ⟨v1, he1, hv1, hl1⟩ := matchRSACall_some_inv hm
            injection he1 with hc1 ha1
            have hargs : NoMapped (subL args) :=
              hc _ (subE_self _) f g1 args hm
            have hcontr := hargs tgt (ha1 ▸ hin2)
            rw [hm0] at hcontr; simp at hcontr
  | simport al => simp [stmtExprs] at hin
  | sfrom M ns => simp [stmtExprs] at hin

theorem modExprs_cons (s : Stmt) (t : List Stmt) :
    modExprs ⟨s :: t⟩ = stmtExprs s ++ modExprs ⟨t⟩ := by
  simp [modExprs]

theorem tStmt_import_eq {s s' : Stmt} (hmem : s' ∈ tStmt s)
    (him : importLike s' = true) : s' = s := by
  cases s with
  | sexpr e =>
      simp only [tStmt] at hmem
      split at hmem
      · rcases List.mem_cons.mp hmem with h | h
        · subst h; simp [importLike] at him
        · rcases List.mem_cons.mp h with h2 | h2
          · subst h2; simp [importLike] at him
          · simp at h2
      · rcases List.mem_cons.mp hmem with h | h
        · subst h; simp [importLike] at him
        · simp at h
  | sassign x e =>
      simp only [tStmt] at hmem
      split at hmem
      · rcases List.mem_cons.mp hmem with h | h
        · subst h; simp [importLike] at him
        · rcases List.mem_cons.mp h with h2 | h2
          · subst h2; simp [importLike] at him
          · simp at h2
      · rcases List.mem_cons.mp hmem with h | h
        · subst h; simp [importLike] at him
        · simp at h
  | simport al => simpa [tStmt] using hmem
  | sfrom M ns => simpa [tStmt] using hmem

theorem replaceRSACalls_body (m : Mod) :
    (replaceRSACalls m).body = (m.body.map tStmt).flatten := rfl

theorem replaceRSACalls_id {m : Mod} (h : NoMapped (modExprs m)) :
    replaceRSACalls m = m := by
  obtain ⟨body⟩ := m
  simp only [replaceRSACalls, Mod.mk.injEq]
  induction body with
  | nil => rfl
  | cons s t ih =>
      rw [modExprs_cons] at h
      have hs : NoMapped (stmtExprs s) := fun g hg =>
        h g (List.mem_append.mpr (Or.inl hg))
      have ht : NoMapped (modExprs ⟨t⟩) := fun g hg =>
        h g (List.mem_append.mpr (Or.inr hg))
      simp only [List.map_cons, List.flatten_cons, tStmt_id hs]
      simp only [List.singleton_append]
      exact congrArg (s :: ·) (ih ht)

theorem modExprs_replace_eq (m : Mod) :
    modExprs (replaceRSACalls m) = stmtsExprs ((m.body.map tStmt).flatten) := rfl

theorem stmtsExprs_append (a b : List Stmt) :
    stmtsExprs (a ++ b) = stmtsExprs a ++ stmtsExprs b := by
  simp [stmtsExprs]

theorem replace_noMapped {m : Mod} (hc : CleanL (modExprs m)) :
    NoMapped (modExprs (replaceRSACalls m)) := by
  obtain ⟨body⟩ := m
  rw [modExprs_replace_eq]
  induction body with
  | nil => intro g hg; simp [stmtsExprs] at hg
  | cons s t ih =>
      rw [modExprs_cons] at hc
      have hcs : CleanL (stmtExprs s) := cleanL_of_append_left hc
      have hct : CleanL (modExprs ⟨t⟩) := cleanL_of_append_right hc
      simp only [List.map_cons, List.flatten_cons, stmtsExprs_append]
      exact noMapped_append (tStmt_noMapped hcs) (ih hct)

theorem replace_preserves (f0 g0 : String) (targs : ExprList) (tgt : PExpr)
    (hm0 : matchRSACall tgt = some (f0, g0, targs))
    {m : Mod} (hc : CleanL (modExprs m)) (hin : tgt ∈ modExprs m) :
    PExpr.ecall (.cname g0) targs ∈ modExprs (replaceRSACalls m) := by
  obtain ⟨body⟩ := m
  rw [modExprs_replace_eq]
  induction body with
  | nil => simp [modExprs] at hin
  | cons s t ih =>
      rw [modExprs_cons] at hc hin
      have hcs : CleanL (stmtExprs s) := cleanL_of_append_left hc
      have hct : CleanL (modExprs ⟨t⟩) := cleanL_of_append_right hc
      simp only [List.map_cons, List.flatten_cons, stmtsExprs_append]
      rcases List.mem_append.mp hin with h | h
      · exact List.mem_append.mpr (Or.inl (tStmt_preserves f0 g0 targs tgt hm0 hcs h))
      · exact List.mem_append.mpr (Or.inr (ih hct h))

theorem replace_noPqc {m : Mod} (h : m.body.any isPqcImport = false) :
    (replaceRSACalls m).body.any isPqcImport = false := by
  rw [← Bool.not_eq_true] at h ⊢
  intro hcontr
  apply h
  rw [List.any_eq_true] at hcontr ⊢
  obtain ⟨s', hs', hp⟩ := hcontr
  rw [replaceRSACalls_body] at hs'
  obtain ⟨l, hl, hsl⟩ := List.mem_flatten.mp hs'
  obtain ⟨s0, hs0, rfl⟩ := List.mem_map.mp hl
  have : s' = s0 := tStmt_import_eq hsl (by cases s' <;> simp_all [isPqcImport, importLike])
  subst this
  exact ⟨s', hs0, hp⟩

theorem replace_rsaFree {m : Mod} (h : ∀ s ∈ m.body, rsaFreeStmt s = true) :
    ∀ s' ∈ (replaceRSACalls m).body, rsaFreeStmt s' = true := by
  intro s' hs'
  rw [replaceRSACalls_body] at hs'
  obtain ⟨l, hl, hsl⟩ := List.mem_flatten.mp hs'
  obtain ⟨s0, hs0, rfl⟩ := List.mem_map.mp hl
  cases hi : importLike s' with
  | true => rw [tStmt_import_eq hsl hi]; exact h s0 hs0
  | false => cases s' <;> simp_all [importLike, rsaFreeStmt]

theorem modExprs_addPQC (m : Mod) :
    modExprs (addPQCImport m) = modExprs m := by
  simp only [addPQCImport]
  split
  · rfl
  · simp [modExprs, stmtExprs, pqcImport]

theorem addPQCImport_body {m : Mod} (h : m.body.any isPqcImport = false) :
    (addPQCImport m).body = pqcImport :: m.body := by
  simp [addPQCImport, h]

/-! ## String-shape lemmas for the unparser output -/

theorem lStarts_self_append (l r : List Char) : lStarts l (l ++ r) = true := by
  induction l with
  | nil => rfl
  | cons a as ih => simp [lStarts, ih]

theorem strStarts_of_data {s p : String} {r : List Char}
    (h : s.data = p.data ++ r) : strStarts s p = true := by
  unfold strStarts
  rw [h]
  exact lStarts_self_append _ _

theorem unparseStmt_nl (s : Stmt) : ∃ r, (unparseStmt s).data = '\n' :: r := by
  cases s with
  | simport al =>
      refine ⟨"import ".data ++ (String.intercalate ", " (al.map unparseAlias)).data, ?_⟩
      show ("\nimport " ++ _).data = _
      rw [String.data_append]
      rfl
  | sfrom M ns =>
      refine ⟨("from " ++ M ++ " import " ++ String.intercalate ", " (ns.map unparseAlias)).data, ?_⟩
      show ("\nfrom " ++ M ++ " import " ++ _).data = _
      simp only [String.data_append]
      rfl
  | sexpr e =>
      refine ⟨(unparseExpr e).data, ?_⟩
      show ("\n" ++ unparseExpr e).data = _
      rw [String.data_append]
      rfl
  | sassign x e =>
      refine ⟨(x ++ " = " ++ unparseExpr e).data, ?_⟩
      show ("\n" ++ x ++ " = " ++ unparseExpr e).data = _
      simp only [String.data_append]
      rfl

theorem unparse_nl (m : Mod) : ∃ r, (unparse m).data = '\n' :: r := by
  obtain ⟨body⟩ := m
  cases body with
  | nil => exact ⟨[], rfl⟩
  | cons s t =>
      obtain ⟨r, hr⟩ := unparseStmt_nl s
      refine ⟨r ++ (unparseBody t).data ++ "\n".data, ?_⟩
      show ((unparseStmt s ++ unparseBody t) ++ "\n").data = _
      simp only [String.data_append, hr]
      simp

theorem not_errStart_of_nl {s : String} {r : List Char}
    (h : s.data = '\n' :: r) : strStarts s "# [Error]" = false := by
  unfold strStarts
  rw [h]
  rfl

theorem refactor_eq_of_parse {code : String} {m : Mod} (h : parse code = some m) :
    refactor_code_ast code = unparse (applyPasses m) := by
  unfold refactor_code_ast; rw [h]

theorem noMapped_of_noMappedB {m : Mod} (h : noMappedB m = true) :
    NoMapped (modExprs m) := by
  intro e he
  have hb := List.all_eq_true.mp h e he
  cases hmc : matchRSACall e with
  | none => rfl
  | some t => rw [isMappedB, hmc] at hb; simp at hb

theorem cleanL_of_cleanB {m : Mod} (h : cleanB m = true) :
    CleanL (modExprs m) := by
  intro e he f g args hm
  have hb := List.all_eq_true.mp h e he
  rw [hm] at hb
  intro x hx
  have hx2 := List.all_eq_true.mp hb x hx
  cases hmc : matchRSACall x with
  | none => rfl
  | some t => rw [isMappedB, hmc] at hx2; simp at hx2

/-! ## Lemmas on the `migrate` refactor loop -/

theorem fsRead_write_self (fs : FS) (p : String) (c : String) :
    fsRead (fsWrite fs p c) p = some c := by
  simp [fsRead, fsWrite, List.lookup]

theorem fsRead_write_ne (fs : FS) (p : String) (c : String) {q : String}
    (h : q ≠ p) : fsRead (fsWrite fs p c) q = fsRead fs q := by
  simp only [fsRead, fsWrite, List.lookup]
  rw [show (q == p) = false from beq_eq_false_iff_ne.mpr h]

/-- Full behavior of the non-dry refactor loop over pairwise-distinct paths:
paths outside the batch keep their content and error count; a path whose
read raises keeps its content and collects exactly one new error; a readable
path ends holding the engine's output for its original content, with no new
error. -/
theorem migrateLoopAux_spec (paths : List String) :
    ∀ (fs : FS) (errs : List String), paths.Nodup →
    (∀ q, q ∉ paths →
        fsRead (migrateLoopAux false fs errs paths).1 q = fsRead fs q
        ∧ (migrateLoopAux false fs errs paths).2.count q = errs.count q)
    ∧ (∀ p ∈ paths,
        (fsRead fs p = none →
          fsRead (migrateLoopAux false fs errs paths).1 p = none
          ∧ (migrateLoopAux false fs errs paths).2.count p = errs.count p + 1)
        ∧ (∀ c, fsRead fs p = some c →
          fsRead (migrateLoopAux false fs errs paths).1 p
            = some (refactor_code_ast c)
          ∧ (migrateLoopAux false fs errs paths).2.count p = errs.count p)) := by
  induction paths with
  | nil =>
      intro fs errs _
      exact ⟨fun q _ => ⟨rfl, rfl⟩, fun p hp => absurd hp (List.not_mem_nil p)⟩
  | cons p0 ps ih =>
      intro fs errs hnd
      obtain ⟨hp0, hndps⟩ := List.nodup_cons.mp hnd
      cases hr : fsRead fs p0 with
      | none =>
          have hstep : migrateLoopAux false fs errs (p0 :: ps)
              = migrateLoopAux false fs (errs ++ [p0]) ps := by
            simp [migrateLoopAux, refactor_file, hr]
          rw [hstep]
          have IH := ih fs (errs ++ [p0]) hndps
          constructor
          · intro q hq
            have hq0 : q ≠ p0 := fun h => hq (h ▸ List.Mem.head _)
            have hqs : q ∉ ps := fun h => hq (List.Mem.tail _ h)
            refine ⟨(IH.1 q hqs).1, ?_⟩
            rw [(IH.1 q hqs).2, List.count_append]
            simp [hq0]
          · intro p hp
            rcases List.mem_cons.mp hp with hp | hp
            · subst hp
              constructor
              · intro _
                refine ⟨by rw [(IH.1 p hp0).1]; exact hr, ?_⟩
                rw [(IH.1 p hp0).2, List.count_append]
                simp
              · intro c hc
                rw [hr] at hc
                exact absurd hc (by simp)
            · have hne : p ≠ p0 := fun h => hp0 (h ▸ hp)
              have IH2 := IH.2 p hp
              constructor
              · intro hn
                refine ⟨(IH2.1 hn).1, ?_⟩
                rw [(IH2.1 hn).2, List.count_append]
                simp [hne]
              · intro c hc
                refine ⟨(IH2.2 c hc).1, ?_⟩
                rw [(IH2.2 c hc).2, List.count_append]
                simp [hne]
      | some code =>
          have hstep : migrateLoopAux false fs errs (p0 :: ps)
              = migrateLoopAux false
                  (fsWrite (fsWrite fs p0 (refactor_code_ast code)) p0
                    (refactor_code_ast code)) errs ps := by
            simp [migrateLoopAux, refactor_file, hr]
          rw [hstep]
          set fs1 := fsWrite (fsWrite fs p0 (refactor_code_ast code)) p0
            (refactor_code_ast code) with hfs1
          have hread1 : ∀ q, q ≠ p0 → fsRead fs1 q = fsRead fs q := by
            intro q hq
            rw [hfs1, fsRead_write_ne _ _ _ hq, fsRead_write_ne _ _ _ hq]
          have hreadp0 : fsRead fs1 p0 = some (refactor_code_ast code) :=
            fsRead_write_self _ _ _
          have IH := ih fs1 errs hndps
          constructor
          · intro q hq
            have hq0 : q ≠ p0 := fun h => hq (h ▸ List.Mem.head _)
            have hqs : q ∉ ps := fun h => hq (List.Mem.tail _ h)
            exact ⟨by rw [(IH.1 q hqs).1]; exact hread1 q hq0, (IH.1 q hqs).2⟩
          · intro p hp
            rcases List.mem_cons.mp hp with hp | hp
            · subst hp
              constructor
              · intro hn
                rw [hr] at hn
                exact absurd hn (by simp)
              · intro c hc
                rw [hr] at hc
                obtain rfl : code = c := by injection hc
                exact ⟨by rw [(IH.1 p hp0).1]; exact hreadp0, (IH.1 p hp0).2⟩
            · have hne : p ≠ p0 := fun h => hp0 (h ▸ hp)
              have IH2 := IH.2 p hp
              constructor
              · intro hn
                rw [← hread1 p hne] at hn
                exact IH2.1 hn
              · intro c hc
                rw [← hread1 p hne] at hc
                exact IH2.2 c hc

/-- The dry-run refactor loop never changes the file system. -/
theorem migrateLoopAux_dry (paths : List String) :
    ∀ (fs : FS) (errs : List String),
      (migrateLoopAux true fs errs paths).1 = fs := by
  induction paths with
  | nil => intro fs errs; rfl
  | cons p0 ps ih =>
      intro fs errs
      cases hr : fsRead fs p0 with
      | none =>
          have hstep : migrateLoopAux true fs errs (p0 :: ps)
              = migrateLoopAux true fs (errs ++ [p0]) ps := by
            simp [migrateLoopAux, refactor_file, hr]
          rw [hstep]; exact ih fs (errs ++ [p0])
      | some code =>
          have hstep : migrateLoopAux true fs errs (p0 :: ps)
              = migrateLoopAux true fs errs ps := by
            simp [migrateLoopAux, refactor_file, hr]
          rw [hstep]; exact ih fs errs

/-! ## Claim theorems -/

/-- C7.  The risk classifier is a pure function of the normalized lowercase
message: a message of the primary rsa-key-usage family classifies `Low`
exactly when it carries a mitigation marker (`>=3072` or `kyber`) and `High`
otherwise — the mitigation check runs ahead of the family's `High` default —
and a message matching no rule of the table classifies `Low`. -/
theorem claimC7_risk_classifier (msg : String) :
    (strStarts (normMsg msg) "insecure rsa key usage detected" = true →
      assess_risk msg =
        (if strHasSub (normMsg msg) ">=3072" || strHasSub (normMsg msg) "kyber"
          then "Low" else "High"))
    ∧ (someRuleFires (normMsg msg) = false → assess_risk msg = "Low") := by
  constructor
  · intro h
    unfold assess_risk
    simp only [h, if_true]
  · intro h
    unfold someRuleFires at h
    obtain ⟨h, h9⟩ := Bool.or_eq_false_iff.mp h
    obtain ⟨h, h8⟩ := Bool.or_eq_false_iff.mp h
    obtain ⟨h, h7⟩ := Bool.or_eq_false_iff.mp h
    obtain ⟨h, h6⟩ := Bool.or_eq_false_iff.mp h
    obtain ⟨h, h5⟩ := Bool.or_eq_false_iff.mp h
    obtain ⟨h, h4⟩ := Bool.or_eq_false_iff.mp h
    obtain ⟨h, h3⟩ := Bool.or_eq_false_iff.mp h
    obtain ⟨h1, h2⟩ := Bool.or_eq_false_iff.mp h
    unfold assess_risk
    simp [h1, h2, h3, h4, h5, h6, h7, h8, h9]

/-- C7 witness: the classifier evaluated through the theorem at a mitigated
rsa message, an unmitigated rsa message, and a message matching no rule. -/
theorem claimC7_witness :
    assess_risk "Insecure RSA key usage detected with Kyber hybrid" = "Low"
    ∧ assess_risk "Insecure RSA key usage detected (1024 bit)" = "High"
    ∧ assess_risk "nothing to see here" = "Low" := by
  refine ⟨?_, ?_, ?_⟩
  · exact ((claimC7_risk_classifier
      "Insecure RSA key usage detected with Kyber hybrid").1 (by decide)).trans
      (by decide)
  · exact ((claimC7_risk_classifier
      "Insecure RSA key usage detected (1024 bit)").1 (by decide)).trans
      (by decide)
  · exact (claimC7_risk_classifier "nothing to see here").2 (by decide)

/-- C8.  Parse-failure containment: when parsing fails, `refactor_code_ast`
returns the original text with the machine-readable error-marker line in
front (it raises nothing, being a total function), and the marker
distinguishes the failure result from every successful output: a success
output never starts with `# [Error]`, while a failure output always does. -/
theorem claimC8_parse_failure (code : String) :
    (parse code = none →
      refactor_code_ast code = errLine ++ code
      ∧ strStarts (refactor_code_ast code) "# [Error]" = true)
    ∧ (∀ m : Mod, parse code = some m →
      strStarts (refactor_code_ast code) "# [Error]" = false) := by
  constructor
  · intro h
    have he : refactor_code_ast code = errLine ++ code := by
      unfold refactor_code_ast; rw [h]
    refine ⟨he, ?_⟩
    rw [he]
    apply strStarts_of_data
      (r := ": AST transformation failed due to invalid syntax\n".data ++ code.data)
    rw [String.data_append, ← List.append_assoc]
    rfl
  · intro m h
    rw [refactor_eq_of_parse h]
    obtain ⟨r, hr⟩ := unparse_nl (applyPasses m)
    exact not_errStart_of_nl hr

/-- C8 witness: the theorem applied to the unparsable text `(` and to the
parsable text `x = y`. -/
theorem claimC8_witness :
    refactor_code_ast "(" = errLine ++ "("
    ∧ strStarts (refactor_code_ast "(") "# [Error]" = true
    ∧ strStarts (refactor_code_ast "x = y") "# [Error]" = false := by
  obtain ⟨h1, h2⟩ := (claimC8_parse_failure "(").1 rfl
  exact ⟨h1, h2,
    (claimC8_parse_failure "x = y").2 ⟨[.sassign "x" (.ename "y")]⟩ rfl⟩

/-- C10.  The import-insertion pass fires on every parsable input without an
existing `pqc_helpers` import: the transformed module starts with the
five-name import (so the engine is not a no-op even on rsa-free sources),
and the engine's output text begins with that import's rendering. -/
theorem claimC10_import_insertion (code : String) (m : Mod)
    (hp : parse code = some m) (hno : m.body.any isPqcImport = false) :
    (applyPasses m).body.head? = some pqcImport
    ∧ applyPasses m ≠ m
    ∧ refactor_code_ast code = unparse (applyPasses m)
    ∧ strStarts (refactor_code_ast code) pqcHeaderStr = true := by
  have hnp2 : (replaceRSACalls (removeRSAImports m)).body.any isPqcImport = false :=
    replace_noPqc (removeRSAImports_noPqc hno)
  have hbody : (applyPasses m).body
      = pqcImport :: (replaceRSACalls (removeRSAImports m)).body :=
    addPQCImport_body hnp2
  refine ⟨?_, ?_, refactor_eq_of_parse hp, ?_⟩
  · rw [hbody]; rfl
  · intro heq
    have : m.body.any isPqcImport = true := by
      conv_lhs => rw [← heq]
      rw [hbody]
      simp [isPqcImport, pqcImport]
    rw [this] at hno; exact Bool.noConfusion hno
  · rw [refactor_eq_of_parse hp]
    apply strStarts_of_data
      (r := (unparseBody (replaceRSACalls (removeRSAImports m)).body).data ++ "\n".data)
    show (unparseBody (applyPasses m).body ++ "\n").data = _
    rw [hbody]
    show (unparseStmt pqcImport ++ _ ++ "\n").data = _
    simp only [String.data_append, pqcHeaderStr, List.append_assoc]

/-- C10 witness: the theorem applied to the rsa-free source `x = y`. -/
theorem claimC10_witness :
    (applyPasses ((parse "x = y").getD ⟨[]⟩)).body.head? = some pqcImport
    ∧ strStarts (refactor_code_ast "x = y") pqcHeaderStr = true := by
  have h := claimC10_import_insertion "x = y" ((parse "x = y").getD ⟨[]⟩)
    rfl (by decide)
  exact ⟨h.1, h.2.2.2⟩

/-- C3 counterexample.  `visit_Import` computes the filtered name list only
to test it for emptiness and returns the original node unchanged, so
`import rsa, os` survives pass 1 whole — the `rsa` binding is kept and the
claimed statement with only the remaining bindings never appears. -/
theorem claimC3_counterexample :
    parse cC3CE = some mC3CE
    ∧ removeRSAImports mC3CE = mC3CE
    ∧ hasRsaImportB (removeRSAImports mC3CE) = true
    ∧ (removeRSAImports mC3CE).body.any
        (fun s => match s with
          | .simport al => al == [(⟨"os", none⟩ : PAlias)]
          | _ => false) = false := by
  exact ⟨rfl, rfl, by decide, by decide⟩

/-- C3 (amended).  The import-removal pass deletes whole statements only:
an `import` statement binding `rsa` together with other names survives
completely unchanged, `rsa` binding included; an `import` statement in
which every binding is `rsa` is deleted whole, as is every
`from rsa import ...` statement; other `from` imports survive, and the
output body is a sublist of the input body (no statement is ever
rewritten). -/
theorem claimC3_import_removal (m : Mod) :
    (∀ al, Stmt.simport al ∈ m.body →
        al.filter (fun a => a.name != "rsa") ≠ [] →
        Stmt.simport al ∈ (removeRSAImports m).body)
    ∧ (∀ M ns, M ≠ "rsa" → Stmt.sfrom M ns ∈ m.body →
        Stmt.sfrom M ns ∈ (removeRSAImports m).body)
    ∧ (∀ al, Stmt.simport al ∈ (removeRSAImports m).body →
        al.filter (fun a => a.name != "rsa") ≠ [])
    ∧ (∀ ns, Stmt.sfrom "rsa" ns ∉ (removeRSAImports m).body)
    ∧ (removeRSAImports m).body.Sublist m.body := by
  refine ⟨?_, ?_, removeRSAImports_import_nonrsa m,
    removeRSAImports_nofromrsa m, removeRSAImports_sublist m⟩
  · intro al hmem hne
    refine List.mem_filterMap.mpr ⟨.simport al, hmem, ?_⟩
    simp only [removeStmt]
    rw [if_neg]
    simp only [List.isEmpty_iff]
    exact hne
  · intro M ns hM hmem
    refine List.mem_filterMap.mpr ⟨.sfrom M ns, hmem, ?_⟩
    simp only [removeStmt]
    rw [if_neg hM]

/-- C1 counterexample.  The claim fails twice on the code: (a) an
already-migrated source (pqc import present, no rsa import, no rsa-attribute
call) is not returned unchanged — the engine reformats it through
unparse-after-parse (leading newline, trailing newline); (b) byte-level
idempotence fails for a parsable source in which the matched call is nested
inside another call's argument list: the audit marker is spliced into the
argument list with its statement newline, which the second run's reparse
normalizes away. -/
theorem claimC1_counterexample :
    (parse cMigCE = some mMigCE ∧ migratedB mMigCE = true
      ∧ refactor_code_ast cMigCE ≠ cMigCE)
    ∧ ((parse cPrintCE).isSome = true
      ∧ refactor_code_ast (refactor_code_ast cPrintCE)
          ≠ refactor_code_ast cPrintCE) := by
  exact ⟨⟨rfl, by decide, by decide⟩, by decide, by decide⟩

/-- C1 (amended).  On already-migrated source the three passes leave the
parsed tree unchanged, so the engine returns the reformatted unparse of that
tree (not the input bytes); and applying the engine twice returns the first
output byte-identically whenever that first output reparses losslessly to a
tree the passes leave fixed — which can fail when a matched call was nested
inside another expression or contained a further matched call. -/
theorem claimC1_amended (code : String) (m : Mod) (h : parse code = some m) :
    (migratedB m = true → applyPasses m = m ∧ refactor_code_ast code = unparse m)
    ∧ (∀ m2 : Mod, parse (refactor_code_ast code) = some m2 → applyPasses m2 = m2 →
        unparse m2 = refactor_code_ast code →
        refactor_code_ast (refactor_code_ast code) = refactor_code_ast code) := by
  constructor
  · intro hm
    simp only [migratedB, Bool.and_eq_true] at hm
    obtain ⟨⟨hk, hn⟩, hp⟩ := hm
    have hid : applyPasses m = m := by
      unfold applyPasses
      rw [removeRSAImports_id hk, replaceRSACalls_id (noMapped_of_noMappedB hn)]
      unfold addPQCImport
      rw [if_pos hp]
    exact ⟨hid, by rw [refactor_eq_of_parse h, hid]⟩
  · intro m2 h2 hfix hup
    rw [refactor_eq_of_parse h2, hfix, hup]

/-- C1 witness: the theorem applied to a migrated source (tree fixed under
the passes) and to a vulnerable source whose engine output reparses to a
fixed tree, giving byte-identical double application. -/
theorem claimC1_witness :
    applyPasses mMigW = mMigW
    ∧ refactor_code_ast (refactor_code_ast cIdemW) = refactor_code_ast cIdemW := by
  constructor
  · exact ((claimC1_amended cMigW mMigW rfl).1 (by decide)).1
  · exact (claimC1_amended cIdemW mIdemW rfl).2 m2IdemW rfl rfl (by decide)

/-- C4 counterexample.  The claim fails twice on the code: (a) a file with
an rsa import and a two-argument `rsa.encrypt` call that also holds a
partial `pqc_helpers` import gets no five-name import at all (pass 3 sees
`pqc_helpers` already imported); (b) when the matched call's own arguments
hold another `rsa.encrypt` call, the inner call survives in the output, so
"no call to rsa.encrypt" fails. -/
theorem claimC4_counterexample :
    (parse cC4a = some mC4a ∧ hasRsaImportB mC4a = true
      ∧ hasRsaEncryptCallB mC4a = true
      ∧ (applyPasses mC4a).body.all (fun s => !isFiveImport s) = true)
    ∧ (parse cC4b = some mC4b ∧ hasRsaImportB mC4b = true
      ∧ hasRsaEncryptCallB mC4b = true
      ∧ hasRsaEncryptCallB (applyPasses mC4b) = true) := by
  exact ⟨⟨rfl, by decide, by decide, by decide⟩,
    rfl, by decide, by decide, by decide⟩

/-- C4 (amended).  For every module with an rsa import, in which every
statement importing `rsa` binds only `rsa` (pass 1 deletes whole
statements only, so a mixed import would keep its `rsa` binding), with no
pre-existing `pqc_helpers` import, a statement-level or argument-level
occurrence of `rsa.encrypt(a1, a2)`, and no matched call nested inside a
matched call's arguments: the transformed module binds no `rsa` import,
holds no matched rsa-attribute call, holds the call `oqs_encrypt(a1, a2)`,
and starts with the five-name `pqc_helpers` import. -/
theorem claimC4_amended (m : Mod) (a1 a2 : PExpr)
    (himp : ∃ al, Stmt.simport al ∈ m.body ∧ ∃ a ∈ al, a.name = "rsa")
    (honly : ∀ al, Stmt.simport al ∈ m.body → (∃ a ∈ al, a.name = "rsa") →
      (al.filter (fun a => a.name != "rsa")).isEmpty = true)
    (hnopqc : m.body.any isPqcImport = false)
    (hclean : CleanL (modExprs m))
    (htgt : PExpr.ecall (.cattr "rsa" "encrypt") (EL [a1, a2]) ∈ modExprs m) :
    (∀ s ∈ (applyPasses m).body, rsaFreeStmt s = true)
    ∧ NoMapped (modExprs (applyPasses m))
    ∧ PExpr.ecall (.cname "oqs_encrypt") (EL [a1, a2]) ∈ modExprs (applyPasses m)
    ∧ (applyPasses m).body.head? = some pqcImport := by
  have hex1 : modExprs (removeRSAImports m) = modExprs m := modExprs_remove m
  have hc1 : CleanL (modExprs (removeRSAImports m)) := by rw [hex1]; exact hclean
  have ht1 : PExpr.ecall (.cattr "rsa" "encrypt") (EL [a1, a2])
      ∈ modExprs (removeRSAImports m) := by rw [hex1]; exact htgt
  have hnp2 : (replaceRSACalls (removeRSAImports m)).body.any isPqcImport = false :=
    replace_noPqc (removeRSAImports_noPqc hnopqc)
  have hbody : (applyPasses m).body
      = pqcImport :: (replaceRSACalls (removeRSAImports m)).body :=
    addPQCImport_body hnp2
  have hm0 : matchRSACall (PExpr.ecall (.cattr "rsa" "encrypt") (EL [a1, a2]))
      = some ("encrypt", "oqs_encrypt", EL [a1, a2]) := rfl
  refine ⟨?_, ?_, ?_, ?_⟩
  · intro s hs
    rw [hbody] at hs
    rcases List.mem_cons.mp hs with hs | hs
    · subst hs; decide
    · exact replace_rsaFree (removeRSAImports_rsaFree_of honly) s hs
  · have : modExprs (applyPasses m)
        = modExprs (replaceRSACalls (removeRSAImports m)) := modExprs_addPQC _
    rw [this]
    exact replace_noMapped hc1
  · have : modExprs (applyPasses m)
        = modExprs (replaceRSACalls (removeRSAImports m)) := modExprs_addPQC _
    rw [this]
    exact replace_preserves "encrypt" "oqs_encrypt" (EL [a1, a2]) _ hm0 hc1 ht1
  · rw [hbody]; rfl

/-- C4 witness: the theorem applied to the Scenario-1 module
`import rsa; rsa.encrypt(a, b)`. -/
theorem claimC4_witness :
    PExpr.ecall (.cname "oqs_encrypt") (EL [.ename "a", .ename "b"])
      ∈ modExprs (applyPasses mC4W)
    ∧ (applyPasses mC4W).body.head? = some pqcImport := by
  have h := claimC4_amended mC4W (.ename "a") (.ename "b")
    ⟨[⟨"rsa", none⟩], List.Mem.head _, ⟨"rsa", none⟩, List.Mem.head _, rfl⟩
    (rsaImportsPure_of_B (by decide))
    (by decide) (cleanL_of_cleanB (by decide)) (List.Mem.head _)
  exact ⟨h.2.2.1, h.2.2.2⟩

/-- C3 witness: the theorem applied to a module holding a mixed import
(which survives whole, `rsa` binding included), a `from rsa import`
statement and a surviving `from` import. -/
theorem claimC3_witness :
    Stmt.simport [⟨"rsa", none⟩, ⟨"os", none⟩]
      ∈ (removeRSAImports ⟨[.simport [⟨"rsa", none⟩, ⟨"os", none⟩],
          .sfrom "rsa" [⟨"key", none⟩],
          .sfrom "pqc_helpers" [⟨"oqs_sign", none⟩]]⟩).body
    ∧ Stmt.sfrom "pqc_helpers" [⟨"oqs_sign", none⟩]
      ∈ (removeRSAImports ⟨[.simport [⟨"rsa", none⟩, ⟨"os", none⟩],
          .sfrom "rsa" [⟨"key", none⟩],
          .sfrom "pqc_helpers" [⟨"oqs_sign", none⟩]]⟩).body := by
  constructor
  · exact (claimC3_import_removal _).1 [⟨"rsa", none⟩, ⟨"os", none⟩]
      (List.Mem.head _) (by decide)
  · exact (claimC3_import_removal _).2.1 "pqc_helpers" [⟨"oqs_sign", none⟩]
      (by decide) (List.Mem.tail _ (List.Mem.tail _ (List.Mem.head _)))

/-- C2 counterexample.  Unparsable source is not an exception for the
refactor loop: `b.py` holds `(`, its transformation "fails" (the engine
returns the marker-prefixed original), yet the loop rewrites `b.py` with
that marked content — so the file's on-disk content changes — and reports
zero errors, against the claimed "content unchanged, exactly one error". -/
theorem claimC2_counterexample :
    fsRead fsC2CE "b.py" = some "("
    ∧ parse "(" = none
    ∧ fsRead (migrateLoop false fsC2CE ["a.py", "b.py", "c.py"]).1 "b.py"
        = some (errLine ++ "(")
    ∧ errLine ++ "(" ≠ "("
    ∧ (migrateLoop false fsC2CE ["a.py", "b.py", "c.py"]).2 = [] := by
  exact ⟨rfl, rfl, by decide, by decide, rfl⟩

/-- C2 (amended).  Per-file isolation holds for genuinely raising refactors:
over pairwise-distinct grouped paths, a file whose read raises keeps its
content and gets exactly one error report, every readable file (including
one with unparsable content) ends rewritten with the engine's output for its
original content with no error report, and files outside the batch are
untouched — the loop never halts early. -/
theorem claimC2_amended (fs : FS) (paths : List String) (hnd : paths.Nodup) :
    (∀ p ∈ paths,
      (fsRead fs p = none →
        fsRead (migrateLoop false fs paths).1 p = none
        ∧ (migrateLoop false fs paths).2.count p = 1)
      ∧ (∀ c, fsRead fs p = some c →
        fsRead (migrateLoop false fs paths).1 p = some (refactor_code_ast c)
        ∧ (migrateLoop false fs paths).2.count p = 0))
    ∧ (∀ q, q ∉ paths →
        fsRead (migrateLoop false fs paths).1 q = fsRead fs q) := by
  have h := migrateLoopAux_spec paths fs [] hnd
  constructor
  · intro p hp
    have h2 := h.2 p hp
    constructor
    · intro hn
      have := h2.1 hn
      simpa [migrateLoop] using this
    · intro c hc
      have := h2.2 c hc
      simpa [migrateLoop] using this
  · intro q hq
    exact (h.1 q hq).1

/-- C2 witness: the theorem applied to `{a.py, b.py, c.py}` with `b.py`
unreadable — `a.py` and `c.py` end rewritten, `b.py` is unchanged with
exactly one error reported. -/
theorem claimC2_witness :
    fsRead (migrateLoop false fsC2W ["a.py", "b.py", "c.py"]).1 "b.py" = none
    ∧ (migrateLoop false fsC2W ["a.py", "b.py", "c.py"]).2.count "b.py" = 1
    ∧ fsRead (migrateLoop false fsC2W ["a.py", "b.py", "c.py"]).1 "a.py"
        = some (refactor_code_ast "import rsa")
    ∧ fsRead (migrateLoop false fsC2W ["a.py", "b.py", "c.py"]).1 "c.py"
        = some (refactor_code_ast "x = y") := by
  have h := claimC2_amended fsC2W ["a.py", "b.py", "c.py"] (by decide)
  obtain ⟨hb1, hb2⟩ := (h.1 "b.py" (by decide)).1 rfl
  obtain ⟨ha1, -⟩ := (h.1 "a.py" (by decide)).2 "import rsa" rfl
  obtain ⟨hc1, -⟩ := (h.1 "c.py" (by decide)).2 "x = y" rfl
  exact ⟨hb1, hb2, ha1, hc1⟩

/-- C6.  Dry-run invariant: a `migrate` run started with the dry-run flag
leaves the file system untouched (the refactor loop computes previews but
never writes; the scan phase only reads) and never invokes the
key-reissuance collaborator. -/
theorem claimC6_dry_run (fs : FS) (findingPaths : List String)
    (cR cRe : Bool) :
    (migrate fs findingPaths true cR cRe).fs = fs
    ∧ (migrate fs findingPaths true cR cRe).reissued = false := by
  unfold migrate
  split
  · exact ⟨rfl, rfl⟩
  · split
    · exact ⟨rfl, rfl⟩
    · simp only [run_tests_success, Bool.not_true, Bool.false_eq_true,
        if_false, migrateLoop]
      exact ⟨migrateLoopAux_dry _ fs [], rfl⟩

/-- C9 counterexample.  A non-dry run that declines the reissuance prompt:
the final report carries the flag as `true` (the code passes
`key_reissuance_done = (not dry_run)`) although the key-reissuance
collaborator was never invoked — refuting the claimed "flag iff confirmed
and invoked". -/
theorem claimC9_counterexample :
    (migrate fsC9W ["a.py"] false true false).report
        = some (true, nextSteps true)
    ∧ (migrate fsC9W ["a.py"] false true false).reissued = false := by
  exact ⟨rfl, rfl⟩

/-- C9 (amended).  Whenever a `migrate` run reaches the final report, the
reported key-reissuance flag equals "not dry-run" — so it agrees with the
actual invocation exactly when the reissuance prompt was accepted or the
run was dry, and overstates it when a non-dry run declines reissuance — and
the next-steps wording branches on that flag. -/
theorem claimC9_amended (fs : FS) (paths : List String) (d cR cRe : Bool)
    (flag : Bool) (ns : String)
    (h : (migrate fs paths d cR cRe).report = some (flag, ns)) :
    flag = !d
    ∧ ((cRe || d) = true →
        flag = (migrate fs paths d cR cRe).reissued)
    ∧ ns = nextSteps flag := by
  unfold migrate at h ⊢
  split at h
  · simp at h
  · split at h
    · simp at h
    · simp only [run_tests_success, Bool.not_true, Bool.false_eq_true,
        if_false] at h ⊢
      simp only [Option.some.injEq, Prod.mk.injEq] at h
      obtain ⟨h1, h2⟩ := h
      subst h1; subst h2
      refine ⟨rfl, ?_, rfl⟩
      intro hcd
      cases d <;> cases cRe <;> simp_all

/-- C9 witness: the theorem applied to a non-dry run that accepts the
reissuance prompt; there the flag does match the actual invocation. -/
theorem claimC9_witness :
    (migrate fsC9W ["a.py"] false true true).reissued = true := by
  have h := claimC9_amended fsC9W ["a.py"] false true true true
    (nextSteps true) rfl
  exact (h.2.1 (by decide)).symm

/-! ## Lemmas for the scan-merge dedup invariant -/

theorem keyHit_false_spec {acc : List Finding} {p : String} {idx : Nat}
    (h : keyHit acc p idx = false) :
    ∀ f ∈ acc, ¬(f.real_path = p ∧ f.line = toString idx) := by
  intro f hf hcontr
  rw [keyHit, ← Bool.not_eq_true, List.any_eq_true] at h
  exact h ⟨f, hf, by simp [hcontr.1, hcontr.2]⟩

theorem isFallback_mkFallback (anon : Bool) (p : String) (idx : Nat) (l : String) :
    isFallback (mkFallback anon p idx l) = true := rfl

theorem goodAcc_append {acc : List Finding} (hyp : GoodAcc acc)
    (anon : Bool) (p : String) (idx : Nat) (l : String)
    (hmiss : keyHit acc p idx = false) :
    GoodAcc (acc ++ [mkFallback anon p idx l]) := by
  have hspec := keyHit_false_spec hmiss
  constructor
  · rw [List.filter_append]
    rw [List.pairwise_append]
    refine ⟨hyp.1, ?_, ?_⟩
    · simp [isFallback_mkFallback]
    · intro a ha b hb
      have hb' : b = mkFallback anon p idx l := by
        simpa [isFallback_mkFallback] using hb
      subst hb'
      have ha' : a ∈ acc := List.mem_of_mem_filter ha
      intro hcontr
      exact hspec a ha' ⟨hcontr.1, hcontr.2⟩
  · intro f hf hfall g hg hstr
    rcases List.mem_append.mp hf with hf | hf
    · rcases List.mem_append.mp hg with hg | hg
      · exact hyp.2 f hf hfall g hg hstr
      · have : g = mkFallback anon p idx l := by simpa using hg
        subst this
        simp [isStructured, mkFallback] at hstr
    · have : f = mkFallback anon p idx l := by simpa using hf
      subst this
      rcases List.mem_append.mp hg with hg | hg
      · intro hcontr
        exact hspec g hg ⟨hcontr.1.symm, hcontr.2.symm⟩
      · have : g = mkFallback anon p idx l := by simpa using hg
        subst this
        simp [isStructured, mkFallback] at hstr

theorem fallbackLines_good (anon : Bool) (p : String) :
    ∀ (ls : List String) (idx : Nat) (acc : List Finding), GoodAcc acc →
      GoodAcc (fallbackLines anon p idx ls acc) := by
  intro ls
  induction ls with
  | nil => intro idx acc h; exact h
  | cons l ls ih =>
      intro idx acc h
      simp only [fallbackLines]
      cases hc : (strHasSub (toLowerStr l) "rsa" && !keyHit acc p idx) with
      | false => exact ih (idx + 1) acc h
      | true =>
          have hk : keyHit acc p idx = false := by
            simp only [Bool.and_eq_true, Bool.not_eq_true'] at hc
            exact hc.2
          exact ih (idx + 1) _ (goodAcc_append h anon p idx l hk)

theorem fallbackPhase_good (anon : Bool) :
    ∀ (files : FileSet) (acc : List Finding), GoodAcc acc →
      GoodAcc (fallbackPhase anon files acc) := by
  intro files
  induction files with
  | nil => intro acc h; exact h
  | cons x rest ih =>
      intro acc h
      obtain ⟨p, cnt⟩ := x
      cases cnt with
      | none => exact ih acc h
      | some ls => exact ih _ (fallbackLines_good anon p ls 1 acc h)

theorem structuredPhase_noFallback (files : FileSet) (anon : Bool)
    (results : List SResult) :
    ∀ f ∈ structuredPhase files anon results, isFallback f = false := by
  intro f hf
  obtain ⟨r, -, hr⟩ := List.mem_filterMap.mp hf
  split at hr
  · cases hr; rfl
  · cases hr

theorem structuredPhase_good (files : FileSet) (anon : Bool)
    (results : List SResult) : GoodAcc (structuredPhase files anon results) := by
  constructor
  · have : (structuredPhase files anon results).filter isFallback = [] := by
      rw [List.filter_eq_nil_iff]
      intro f hf
      rw [structuredPhase_noFallback files anon results f hf]
      simp
    rw [this]
    exact List.Pairwise.nil
  · intro f hf hfall
    rw [structuredPhase_noFallback files anon results f hf] at hfall
    cases hfall

/-- C5 (amended).  The dedup half of the merge invariant holds as claimed
for the fallback stream: in the final Finding list, fallback findings carry
pairwise-distinct (real path, line) keys and never sit at a key occupied by
a structured finding (structured findings take priority).  The structured
half is corrected by the counterexample: the structured loop itself never
deduplicates. -/
theorem claimC5_amended (files : FileSet) (anonymize : Bool)
    (results : List SResult) :
    ((scan_codebase files anonymize results).filter isFallback).Pairwise
      (fun f g => ¬(f.real_path = g.real_path ∧ f.line = g.line))
    ∧ (∀ f ∈ scan_codebase files anonymize results, isFallback f = true →
        ∀ g ∈ scan_codebase files anonymize results, isStructured g = true →
          ¬(f.real_path = g.real_path ∧ f.line = g.line)) :=
  fallbackPhase_good anonymize files _
    (structuredPhase_good files anonymize results)

/-- C5 counterexample.  Two distinct analyzer results at the same
(real path, line) key each pass the rsa filter and each append a structured
Finding, so the final list holds two structured findings at one key —
refuting "at most one structured finding per key". -/
theorem claimC5_counterexample :
    ((scan_codebase filesC5 false resC5).filter
      (fun f => isStructured f && (f.real_path == "a.py") && (f.line == "1"))).length
      = 2 := by decide

/-- C5 witness: the fallback-stream half of the theorem evaluated at the
concrete scan input. -/
theorem claimC5_witness :
    ((scan_codebase filesC5 false resC5).filter isFallback).Pairwise
      (fun f g => ¬(f.real_path = g.real_path ∧ f.line = g.line)) :=
  (claimC5_amended filesC5 false resC5).1

end QMC
